import Mathlib

/-!
Shallow embedding of the chunked data cache of `stat-visualizer`
(`src/App.tsx` and `src/utils/indexedDB.ts`).

Modelling conventions:
* JavaScript numbers that hold array indices, counts and chunk ids are
  modelled as `Nat`; the series values themselves are never computed with
  (only sliced and concatenated), so they are modelled as `Int`.
* `Map`s (both the in-memory resident tier `loadedChunks` and the
  IndexedDB object stores) are modelled as insertion-ordered association
  lists with upsert semantics (`jsMapSet`), matching `Map.set` /
  IndexedDB `put`.
* Asynchronous code is modelled sequentially: within one ingest batch the
  items are processed in list order, which is one linearization of the
  `Promise.all` batch.
* Fallible operations return `Option`; thrown ingest errors become the
  `IngestResult` error constructors, one per `throw` site of `loadAllData`.
* `JSON.parse` of an uploaded file is modelled by giving each file a
  pre-parsed `FContent`; a file whose body does not parse is `badText`.
* State-changing calls are additionally logged in an event trace
  (`Ev`) so that "no chunk is re-parsed / re-written" and the emitted
  progress sequence are expressible.
-/

/-- JavaScript `Array.prototype.slice(a, b)` for the non-negative,
already-clamped arguments produced by `getDataForRange` (the code always
calls it with `0 ≤ a` and `b ≥ 0`; out-of-range bounds are clamped by
`slice`, matching `drop`/`take`). -/
def jsSlice {α : Type} (l : List α) (a b : Nat) : List α :=
  (l.drop a).take (b - a)

/-- Lookup in a JS `Map` (or an IndexedDB store keyed by `κ`). -/
def jsMapGet {κ α : Type} [DecidableEq κ] (m : List (κ × α)) (k : κ) : Option α :=
  (m.find? (fun p => decide (p.1 = k))).map (fun p => p.2)

/-- JS `Map.set` / IndexedDB `put`: replace the entry in place if the key
is present, otherwise append (insertion order preserved). -/
def jsMapSet {κ α : Type} [DecidableEq κ] (m : List (κ × α)) (k : κ) (v : α) : List (κ × α) :=
  if m.any (fun p => decide (p.1 = k)) then
    m.map (fun p => if p.1 = k then (k, v) else p)
  else
    m ++ [(k, v)]

/-- JS `Map.has`. -/
def jsMapHas {κ α : Type} [DecidableEq κ] (m : List (κ × α)) (k : κ) : Bool :=
  m.any (fun p => decide (p.1 = k))

/-- Character-list prefix test (`pat` is a prefix of `s`), the building
block for the JS string predicates below; defined on `String.data` so
that it evaluates by kernel reduction. -/
def charsStartWith : List Char → List Char → Bool
  | _, [] => true
  | [], _ :: _ => false
  | a :: as, b :: bs => a == b && charsStartWith as bs

/-- Substring occurrence on character lists. -/
def charsContain : List Char → List Char → Bool
  | [], pat => pat.isEmpty
  | c :: rest, pat => charsStartWith (c :: rest) pat || charsContain rest pat

/-- JS `s.includes(pat)`. -/
def strContainsSub (s pat : String) : Bool :=
  charsContain s.data pat.data

/-- JS `s.endsWith(pat)`. -/
def strEndsWith (s pat : String) : Bool :=
  charsStartWith s.data.reverse pat.data.reverse

/-- `ICurrencyData` (three parallel numeric series). -/
structure CurrencyData where
  movingAverages : List Int
  normalizedPrices : List Int
  cumulativeMeans : List Int
deriving DecidableEq

/-- `IChunkData`: the dynamic coin-keyed part is modelled as an
association list (JS object keys, insertion ordered), plus the
distinguished `avgMaSpread` series. -/
structure ChunkData where
  coinSeries : List (String × CurrencyData)
  avgMaSpread : List Int
deriving DecidableEq

/-- `IChunkInfo`. -/
structure ChunkInfo where
  id : Nat
  startIndex : Nat
  endIndex : Nat
  file : String
deriving DecidableEq

/-- `IMetadata`. -/
structure Metadata where
  coins : List String
  koef : Int
  totalPoints : Nat
  chunkSize : Nat
  chunks : List ChunkInfo
deriving DecidableEq

def emptyCurrency : CurrencyData := ⟨[], [], []⟩

/-- `chunk[coin] as ICurrencyData`. The code never reads a coin that is
absent from a chunk (doing so would throw in JS); the `emptyCurrency`
default is only a totalization of that unreachable corner. -/
def getCoin (cd : ChunkData) (coin : String) : CurrencyData :=
  match cd.coinSeries.find? (fun p => decide (p.1 = coin)) with
  | some p => p.2
  | none => emptyCurrency

/-! ## IndexedDBManager (`src/utils/indexedDB.ts`)

The manager's persistent state: the metadata object store with its two
fixed keys `"current"` and `"hash"`, and the chunk object store keyed by
`chunkId`. `init` only opens the database and is a no-op on this state. -/

structure DBState where
  metaCurrent : Option Metadata
  metaHash : Option String
  chunks : List (Nat × ChunkData)
deriving DecidableEq

/-- `clearAll()`: empties both object stores in one transaction. -/
def clearAllDB (_db : DBState) : DBState := ⟨none, none, []⟩

/-- `saveMetadata(metadata)`: `put(METADATA_STORE, metadata, "current")`. -/
def saveMetadataDB (db : DBState) (m : Metadata) : DBState :=
  { db with metaCurrent := some m }

/-- `saveMetadataHash(hash)`: `put(METADATA_STORE, hash, "hash")`. -/
def saveMetadataHashDB (db : DBState) (h : String) : DBState :=
  { db with metaHash := some h }

/-- `getMetadata()`: `metadata || null`. A stored metadata value is a JS
object and objects are always truthy, so the `|| null` coercion is the
identity here. -/
def getMetadataDB (db : DBState) : Option Metadata := db.metaCurrent

/-- `getMetadataHash()`: `hash || null`. The only falsy string is `""`,
so a stored empty string is coerced to `null` (absence). -/
def getMetadataHashDB (db : DBState) : Option String :=
  match db.metaHash with
  | some h => if h = "" then none else some h
  | none => none

/-- `saveChunk(chunkId, chunkData)`: `put(CHUNKS_STORE, { chunkId, data })`,
an upsert keyed by `chunkId`. -/
def saveChunkDB (db : DBState) (id : Nat) (data : ChunkData) : DBState :=
  { db with chunks := jsMapSet db.chunks id data }

/-- `getChunk(chunkId)`: point lookup; `result ? result.data : null` (the
stored record is an object, hence truthy whenever present). -/
def getChunkDB (db : DBState) (id : Nat) : Option ChunkData :=
  jsMapGet db.chunks id

/-- `hasChunk(chunkId)`: `count(CHUNKS_STORE, chunkId) > 0`. -/
def hasChunkDB (db : DBState) (id : Nat) : Bool :=
  decide (0 < db.chunks.countP (fun p => decide (p.1 = id)))

/-- `getCachedChunksCount()`: `count(CHUNKS_STORE)`. -/
def getCachedChunksCount (db : DBState) : Nat := db.chunks.length

/-! ## Range Reader (`getDataForRange` / `loadChunksForRange`, App.tsx) -/

/-- The chunk ids enumerated by the loop
`for (chunkId = startChunkId; chunkId <= endChunkId; chunkId++)` with
`startChunkId = Math.floor(start / chunkSize)` and
`endChunkId = Math.floor(end / chunkSize)` (both `getDataForRange` and
`loadChunksForRange` compute the bounds this way). -/
def visitedChunkIds (chunkSize start endIdx : Nat) : List Nat :=
  (List.range (endIdx / chunkSize + 1 - start / chunkSize)).map
    (fun k => start / chunkSize + k)

/-- `loadChunksForRange`'s `chunksToLoad`: visited ids that are not yet in
the resident tier and are below the known chunk count. -/
def chunksToLoad (loadedChunks : List (Nat × ChunkData)) (meta : Metadata)
    (start endIdx : Nat) : List Nat :=
  (visitedChunkIds meta.chunkSize start endIdx).filter
    (fun i => !(jsMapHas loadedChunks i) && decide (i < meta.chunks.length))

/-- One per-coin append step of the merge loop: pushes the three slices
onto `mergedData[coin]`'s parallel arrays. -/
def appendCoinSlices (merged : ChunkData) (coin : String)
    (ma np cm : List Int) : ChunkData :=
  { merged with coinSeries := merged.coinSeries.map (fun p =>
      if p.1 = coin then
        (p.1, ⟨p.2.movingAverages ++ ma, p.2.normalizedPrices ++ np,
               p.2.cumulativeMeans ++ cm⟩)
      else p) }

/-- The `metadata.coins.forEach` body of the merge loop: read
`chunk[coin]` and push its three sliced sub-series. -/
def coinFoldStep (chunk : ChunkData) (localStart localEnd : Nat)
    (acc : ChunkData) (coin : String) : ChunkData :=
  let cd := getCoin chunk coin
  appendCoinSlices acc coin
    (jsSlice cd.movingAverages localStart localEnd)
    (jsSlice cd.normalizedPrices localStart localEnd)
    (jsSlice cd.cumulativeMeans localStart localEnd)

/-- The body of `getDataForRange`'s per-chunk iteration: for each coin
push the three sliced sub-series, then push the sliced `avgMaSpread`. -/
def addChunkSlices (coins : List String) (chunk : ChunkData)
    (localStart localEnd : Nat) (merged : ChunkData) : ChunkData :=
  let m1 := coins.foldl (coinFoldStep chunk localStart localEnd) merged
  { m1 with avgMaSpread :=
      m1.avgMaSpread ++ jsSlice chunk.avgMaSpread localStart localEnd }

/-- `getDataForRange(start, end)` (App.tsx): merges the resident chunks
covering `[start, end)` into one `ChunkData`, skipping chunks missing
from the resident tier (`if (!chunk) continue`). `localStart =
Math.max(0, start - chunkStart)` is truncated `Nat` subtraction and
`localEnd = Math.min(chunkSize, end - chunkStart)`; for every visited
chunk `chunkStart ≤ end`, so the `Nat` subtraction in `localEnd` agrees
with JS. The `!metadata` early return is factored out: callers supply the
metadata. The per-chunk body (`if (!chunk) continue` and the local slice
bounds) is `chunkMergeStep`. -/
def chunkMergeStep (coins : List String) (loadedChunks : List (Nat × ChunkData))
    (cs start endIdx : Nat) (merged : ChunkData) (chunkId : Nat) : ChunkData :=
  match jsMapGet loadedChunks chunkId with
  | none => merged
  | some chunk =>
    let chunkStart := chunkId * cs
    addChunkSlices coins chunk
      (start - chunkStart) (min cs (endIdx - chunkStart)) merged

def getDataForRange (meta : Metadata) (loadedChunks : List (Nat × ChunkData))
    (start endIdx : Nat) : ChunkData :=
  let init : ChunkData :=
    { coinSeries := meta.coins.map (fun c => (c, emptyCurrency)),
      avgMaSpread := [] }
  (visitedChunkIds meta.chunkSize start endIdx).foldl
    (chunkMergeStep meta.coins loadedChunks meta.chunkSize start endIdx) init

/-- Selector for one logical output series of the range reader: one of a
coin's three sub-series, or the distinguished `avgMaSpread`. -/
inductive SeriesSel where
  | selMA (coin : String)
  | selNP (coin : String)
  | selCM (coin : String)
  | selSpread
deriving DecidableEq

def seriesOf (cd : ChunkData) : SeriesSel → List Int
  | .selMA c => (getCoin cd c).movingAverages
  | .selNP c => (getCoin cd c).normalizedPrices
  | .selCM c => (getCoin cd c).cumulativeMeans
  | .selSpread => cd.avgMaSpread

/-- A selector that the dataset actually has: its coin is one of the
metadata's coins (the spread series always exists). -/
def selValid (coins : List String) : SeriesSel → Prop
  | .selMA c => c ∈ coins
  | .selNP c => c ∈ coins
  | .selCM c => c ∈ coins
  | .selSpread => True

instance (coins : List String) (sel : SeriesSel) : Decidable (selValid coins sel) := by
  cases sel <;> simp [selValid] <;> infer_instance

/-- The slice of one visited chunk that `getDataForRange` contributes for
a given selector: nothing if the chunk is not resident, otherwise the
local slice. -/
def chunkContribution (loadedChunks : List (Nat × ChunkData)) (cs start endIdx : Nat)
    (sel : SeriesSel) (chunkId : Nat) : List Int :=
  match jsMapGet loadedChunks chunkId with
  | none => []
  | some chunk =>
    jsSlice (seriesOf chunk sel) (start - chunkId * cs) (min cs (endIdx - chunkId * cs))

/-! ## Ingest Pipeline (`loadAllData`, App.tsx) -/

/-- The pre-parsed body of an uploaded file (`JSON.parse` of its text):
a metadata document, a chunk document, or unparseable JSON. -/
inductive FContent where
  | metaText (m : Metadata)
  | chunkText (c : ChunkData)
  | badText
deriving DecidableEq

/-- An uploaded `File`: its name, the SHA-256 content hash the pipeline
would compute from its bytes (`calculateFileHash`), and its parsed body. -/
structure UFile where
  name : String
  hash : String
  content : FContent
deriving DecidableEq

/-- `JSON.parse(metadataText)` viewed as a `Metadata` document; `none`
models a thrown parse error. -/
def parseMetadataText : FContent → Option Metadata
  | .metaText m => some m
  | _ => none

/-- `JSON.parse(text)` of a chunk file viewed as a `ChunkData` document. -/
def parseChunkText : FContent → Option ChunkData
  | .chunkText c => some c
  | _ => none

/-- `chunkInfo.file.split("/").pop() || chunkInfo.file`: the part of the
path after the last `/` (the whole path when there is none), falling back
to the whole path when that part is the empty string (falsy). -/
def basenameOf (path : String) : String :=
  let last := String.mk ((path.data.reverse.takeWhile (fun c => !(c == '/'))).reverse)
  if last = "" then path else last

/-- One step of the file-scanning loop of `loadAllData`: a file ending in
`.chunked.visualize.json` becomes the (current) metadata file; otherwise
a file whose name contains `chunk_` and ends in `.json` is put into
`chunkFilesMap` keyed by its name. -/
def scanStep (acc : Option UFile × List (String × UFile)) (f : UFile) :
    Option UFile × List (String × UFile) :=
  if strEndsWith f.name ".chunked.visualize.json" then (some f, acc.2)
  else if strContainsSub f.name "chunk_" && strEndsWith f.name ".json" then
    (acc.1, jsMapSet acc.2 f.name f)
  else acc

/-- The file-scanning loop of `loadAllData`; the last matching file wins
the metadata slot, exactly as the loop's repeated assignment does. -/
def scanFiles (files : List UFile) : Option UFile × List (String × UFile) :=
  files.foldl scanStep (none, [])

/-- Chunk-file matching: first `chunkFilesMap.get(fileName)` with the
basename of `chunkInfo.file`, then — if that misses — the first map entry
(in insertion order) whose name contains `chunk_<id>.json`. -/
def matchChunkFile (cfm : List (String × UFile)) (info : ChunkInfo) : Option UFile :=
  match jsMapGet cfm (basenameOf info.file) with
  | some f => some f
  | none =>
    (cfm.find? (fun p =>
      strContainsSub p.1 ("chunk_" ++ toString info.id ++ ".json"))).map (fun p => p.2)

/-- Matched file content of one chunk item, if it matches and parses. -/
def itemResolve (cfm : List (String × UFile)) (info : ChunkInfo) : Option ChunkData :=
  (matchChunkFile cfm info).bind (fun f => parseChunkText f.content)

/-- Trace events: the persistent writes, chunk-file parses and progress
emissions of `loadAllData`. -/
inductive Ev where
  | evClearAll
  | evSaveMetadata
  | evSaveHash
  | evParseChunk (id : Nat)
  | evSaveChunk (id : Nat)
  | evProgress (p : Nat)
deriving DecidableEq

/-- The outcome of `loadAllData`, one constructor per `throw` site. -/
inductive IngestResult where
  | ok
  | errMissingMetadataFile
  | errMetadataParse
  | errChunkNotFound (id : Nat)
  | errChunkParse (id : Nat)
deriving DecidableEq

def progressOf : Ev → Option Nat
  | .evProgress p => some p
  | _ => none

/-- Events that touch the persistent store or parse a chunk file. -/
def isWriteEv : Ev → Bool
  | .evClearAll => true
  | .evSaveMetadata => true
  | .evSaveHash => true
  | .evParseChunk _ => true
  | .evSaveChunk _ => true
  | .evProgress _ => false

/-- `Math.round((done / total) * 100)` in exact rational arithmetic:
`Math.round(x) = ⌊x + 1/2⌋` for non-negative `x`. -/
def jsRound100 (done total : Nat) : Nat :=
  (200 * done + total) / (2 * total)

/-- One ingest batch, processed item by item (a linearization of the
batch's `Promise.all`): match the chunk file, parse it, `saveChunk` it;
the first failure aborts with the corresponding error. -/
def runItems (cfm : List (String × UFile)) :
    DBState → List ChunkInfo → DBState × List Ev × Option IngestResult
  | db, [] => (db, [], none)
  | db, info :: rest =>
    match matchChunkFile cfm info with
    | none => (db, [], some (.errChunkNotFound info.id))
    | some f =>
      match parseChunkText f.content with
      | none => (db, [], some (.errChunkParse info.id))
      | some cd =>
        let db1 := saveChunkDB db info.id cd
        let out := runItems cfm db1 rest
        (out.1, Ev.evParseChunk info.id :: Ev.evSaveChunk info.id :: out.2.1, out.2.2)

/-- The body of the batch loop, made structurally recursive on a fuel
argument bounding the number of remaining chunk infos (each iteration
consumes at least one, so any fuel ≥ the list length is enough; the
zero-fuel case with a non-empty list is unreachable from `ingestLoop`). -/
def ingestGo (cfm : List (String × UFile)) (total : Nat) :
    Nat → Nat → DBState → List ChunkInfo → DBState × List Ev × Option IngestResult
  | _, _, db, [] => (db, [], none)
  | 0, _, db, _ :: _ => (db, [], none)
  | fuel + 1, done, db, info :: rest =>
    let out := runItems cfm db (info :: rest.take 4)
    match out.2.2 with
    | some err => (out.1, out.2.1, some err)
    | none =>
      let out2 := ingestGo cfm total fuel (done + 5) out.1 (rest.drop 4)
      (out2.1,
       out.2.1 ++ Ev.evProgress (jsRound100 (min (done + 5) total) total) :: out2.2.1,
       out2.2.2)

/-- The batch loop `for (i = 0; i < totalChunks; i += BATCH_SIZE)` with
`BATCH_SIZE = 5`: take the next five chunk infos, run them, and on
success emit `Math.round((batchEnd / totalChunks) * 100)` with
`batchEnd = Math.min(i + 5, totalChunks)`; `done` tracks `i`. -/
def ingestLoop (cfm : List (String × UFile)) (total : Nat) (done : Nat)
    (db : DBState) (l : List ChunkInfo) : DBState × List Ev × Option IngestResult :=
  ingestGo cfm total l.length done db l

/-- The reload loop that repopulates the resident tier from the store:
`for (i = 0; i < n; i++) { chunk = getChunk(i); if (chunk) set(i, chunk) }`. -/
def loadChunksFromDB (db : DBState) (n : Nat) : List (Nat × ChunkData) :=
  (List.range n).foldl (fun acc i =>
    match getChunkDB db i with
    | some c => jsMapSet acc i c
    | none => acc) []

/-- The progress emissions of the cache-hit reload loop:
`if (i % 10 === 0) setProgress(Math.round((i / n) * 100))`. -/
def hitProgressEvents (n : Nat) : List Ev :=
  ((List.range n).filter (fun i => i % 10 == 0)).map
    (fun i => Ev.evProgress (jsRound100 i n))

/-- The UI-side state the pipeline maintains: the IndexedDB contents, the
`metadata` React state, and the resident tier `loadedChunks`. -/
structure AppState where
  db : DBState
  metadata : Option Metadata
  loadedChunks : List (Nat × ChunkData)
deriving DecidableEq

/-- The cache-hit branch of `loadAllData`: keep the store as is, adopt the
cached metadata, and repopulate the resident tier from the store. -/
def hitIngest (st : AppState) (cm : Metadata) : AppState × IngestResult × List Ev :=
  let n := cm.chunks.length
  (⟨st.db, some cm, loadChunksFromDB st.db n⟩, .ok,
   hitProgressEvents n ++ [Ev.evProgress 100])

/-- The cache-miss branch of `loadAllData`: `clearAll`, save the new
metadata and hash, ingest the chunk files in batches of five, then reload
every chunk from the store into the resident tier. On an ingest error the
resident tier is left as it was (`setLoadedChunks` is never reached) but
`metadata` has already been set, and the chunks saved so far remain. -/
def missIngest (st : AppState) (cfm : List (String × UFile)) (meta : Metadata)
    (mh : String) : AppState × IngestResult × List Ev :=
  let db3 := saveMetadataHashDB (saveMetadataDB (clearAllDB st.db) meta) mh
  let total := meta.chunks.length
  let out := ingestLoop cfm total 0 db3 meta.chunks
  match out.2.2 with
  | some e =>
    (⟨out.1, some meta, st.loadedChunks⟩, e,
     Ev.evClearAll :: Ev.evSaveMetadata :: Ev.evSaveHash :: out.2.1)
  | none =>
    (⟨out.1, some meta, loadChunksFromDB out.1 total⟩, .ok,
     Ev.evClearAll :: Ev.evSaveMetadata :: Ev.evSaveHash :: out.2.1)

/-- `loadAllData(files)`: scan the uploads, parse the metadata file,
compute its content hash, and either take the cache-hit path (stored hash
equals the new hash AND stored metadata present) or rebuild the cache.
The initial `setProgress(0)` is the leading trace event. -/
def loadAllData (st : AppState) (files : List UFile) :
    AppState × IngestResult × List Ev :=
  let scanned := scanFiles files
  let out :=
    match scanned.1 with
    | none => (st, IngestResult.errMissingMetadataFile, ([] : List Ev))
    | some mf =>
      match parseMetadataText mf.content with
      | none => (st, IngestResult.errMetadataParse, ([] : List Ev))
      | some meta =>
        match getMetadataDB st.db with
        | some cm =>
          if getMetadataHashDB st.db = some mf.hash then hitIngest st cm
          else missIngest st scanned.2 meta mf.hash
        | none => missIngest st scanned.2 meta mf.hash
  (out.1, out.2.1, Ev.evProgress 0 :: out.2.2)

/-! ## Concrete sample data (used by witnesses and counterexamples) -/

/-- An arithmetic sample series `base, base+1, …` of the given length. -/
def cSeries (base : Int) (len : Nat) : List Int :=
  (List.range len).map (fun n => base + Int.ofNat n)

def cCur (base : Int) (len : Nat) : CurrencyData :=
  ⟨cSeries base len, cSeries (base + 1000) len, cSeries (base + 2000) len⟩

def cChunk (base : Int) (len : Nat) : ChunkData :=
  ⟨[("A", cCur base len)], cSeries (base + 3000) len⟩

/-- A sample dataset descriptor: `chunkSize = 100`, `totalPoints = 250`,
three chunks. -/
def meta100 : Metadata :=
  ⟨["A"], 1, 250, 100,
   [⟨0, 0, 100, "chunks/chunk_0.json"⟩,
    ⟨1, 100, 200, "chunks/chunk_1.json"⟩,
    ⟨2, 200, 250, "chunks/chunk_2.json"⟩]⟩

/-- A resident tier holding all three sample chunks. -/
def loaded100 : List (Nat × ChunkData) :=
  [(0, cChunk 0 100), (1, cChunk 10000 100), (2, cChunk 20000 50)]

/-- A resident tier with chunk 1 missing. -/
def loadedGap : List (Nat × ChunkData) :=
  [(0, cChunk 0 100), (2, cChunk 20000 50)]

def db0 : DBState := ⟨none, none, []⟩

/-- A sample seven-chunk dataset descriptor (chunk size 1) for exercising
the ingest pipeline end to end. -/
def wMeta : Metadata :=
  ⟨["A"], 1, 7, 1,
   [⟨0, 0, 1, "chunk_0.json"⟩, ⟨1, 1, 2, "chunk_1.json"⟩, ⟨2, 2, 3, "chunk_2.json"⟩,
    ⟨3, 3, 4, "chunk_3.json"⟩, ⟨4, 4, 5, "chunk_4.json"⟩, ⟨5, 5, 6, "chunk_5.json"⟩,
    ⟨6, 6, 7, "chunk_6.json"⟩]⟩

def wMetaFile : UFile := ⟨"m.chunked.visualize.json", "h1", FContent.metaText wMeta⟩

/-- An upload set holding `wMetaFile` plus its seven chunk files. -/
def wFiles : List UFile :=
  wMetaFile :: (List.range 7).map (fun i =>
    ⟨"chunk_" ++ toString i ++ ".json", "hc", FContent.chunkText (cChunk (Int.ofNat i * 10) 1)⟩)

/-- The upload set `wFiles` with the file for chunk 5 left out. -/
def wFilesMissing5 : List UFile :=
  wMetaFile :: ([0, 1, 2, 3, 4, 6] : List Nat).map (fun i =>
    ⟨"chunk_" ++ toString i ++ ".json", "hc", FContent.chunkText (cChunk (Int.ofNat i * 10) 1)⟩)

/-! ## Association-map lemmas -/

theorem find?_map_update {κ α : Type} [DecidableEq κ] (m : List (κ × α)) (k : κ) (v : α)
    (h : m.any (fun p => decide (p.1 = k)) = true) :
    (m.map (fun p => if p.1 = k then (k, v) else p)).find?
      (fun p => decide (p.1 = k)) = some (k, v) := by
  induction m with
  | nil => simp at h
  | cons p t ih =>
    by_cases hp : p.1 = k
    · simp [List.find?, hp]
    · simp only [List.any_cons, Bool.or_eq_true, decide_eq_true_eq] at h
      rcases h with h | h
      · exact absurd h hp
      · simpa [List.find?, hp] using ih (by simpa using h)

theorem find?_append_new {κ α : Type} [DecidableEq κ] (m : List (κ × α)) (k : κ) (v : α)
    (h : m.any (fun p => decide (p.1 = k)) = false) :
    (m ++ [(k, v)]).find? (fun p => decide (p.1 = k)) = some (k, v) := by
  induction m with
  | nil => simp [List.find?]
  | cons p t ih =>
    simp only [List.any_cons, Bool.or_eq_false_iff, decide_eq_false_iff_not] at h
    simpa [List.find?, h.1] using ih (by simp [h.2])

theorem jsMapGet_set_self {κ α : Type} [DecidableEq κ] (m : List (κ × α)) (k : κ) (v : α) :
    jsMapGet (jsMapSet m k v) k = some v := by
  unfold jsMapGet jsMapSet
  by_cases h : m.any (fun p => decide (p.1 = k)) = true
  · simp [h, find?_map_update m k v h]
  · simp only [Bool.not_eq_true] at h
    simp [h, find?_append_new m k v h]

theorem find?_map_update_ne {κ α : Type} [DecidableEq κ] (m : List (κ × α)) (k k' : κ) (v : α)
    (hk : k' ≠ k) :
    (m.map (fun p => if p.1 = k then (k, v) else p)).find?
      (fun p => decide (p.1 = k')) = m.find? (fun p => decide (p.1 = k')) := by
  induction m with
  | nil => simp
  | cons p t ih =>
    simp only [List.map_cons]
    by_cases hp : p.1 = k
    · rw [if_pos hp, List.find?_cons_of_neg _ (by simp [Ne.symm hk]),
        List.find?_cons_of_neg _ (by simp [hp, Ne.symm hk])]
      exact ih
    · rw [if_neg hp]
      by_cases hp' : p.1 = k'
      · rw [List.find?_cons_of_pos _ (by simp [hp']),
          List.find?_cons_of_pos _ (by simp [hp'])]
      · rw [List.find?_cons_of_neg _ (by simp [hp']),
          List.find?_cons_of_neg _ (by simp [hp'])]
        exact ih

theorem jsMapGet_set_ne {κ α : Type} [DecidableEq κ] (m : List (κ × α)) (k k' : κ) (v : α)
    (hk : k' ≠ k) :
    jsMapGet (jsMapSet m k v) k' = jsMapGet m k' := by
  unfold jsMapGet jsMapSet
  by_cases h : m.any (fun p => decide (p.1 = k)) = true
  · simp [h, find?_map_update_ne m k k' v hk]
  · simp only [Bool.not_eq_true] at h
    rw [if_neg (by simp [h]), List.find?_append]
    have h1 : List.find? (fun p => decide (p.1 = k')) [(k, v)] = none := by
      simp [Ne.symm hk]
    rw [h1, Option.or_none]

theorem length_jsMapSet_new {κ α : Type} [DecidableEq κ] (m : List (κ × α)) (k : κ) (v : α)
    (h : jsMapGet m k = none) : (jsMapSet m k v).length = m.length + 1 := by
  have hany : m.any (fun p => decide (p.1 = k)) = false := by
    unfold jsMapGet at h
    rcases hf : m.find? (fun p => decide (p.1 = k)) with _ | p
    · rw [List.find?_eq_none] at hf
      rw [List.any_eq_false]
      exact hf
    · simp [hf] at h
  simp [jsMapSet, hany]

/-! ## Claim C8: chunk store round-trip -/

/-- Claim C8: for every chunk id and `ChunkData` value, `saveChunk(id, data)`
followed by `getChunk(id)` returns a value deep-equal (structurally equal)
to `data`; `hasChunk(id)` returns `true` afterward; and if no chunk with
that id was present before the save, `getCachedChunksCount()` after the
save is exactly one greater than before. -/
theorem saveChunk_roundTrip (db : DBState) (id : Nat) (data : ChunkData) :
    getChunkDB (saveChunkDB db id data) id = some data ∧
    hasChunkDB (saveChunkDB db id data) id = true ∧
    (getChunkDB db id = none →
      getCachedChunksCount (saveChunkDB db id data) = getCachedChunksCount db + 1) := by
  refine ⟨jsMapGet_set_self db.chunks id data, ?_, ?_⟩
  · have hg := jsMapGet_set_self db.chunks id data
    unfold jsMapGet at hg
    rcases hf : (jsMapSet db.chunks id data).find? (fun p => decide (p.1 = id)) with _ | p
    · rw [hf] at hg; simp at hg
    · have hmem := List.mem_of_find?_eq_some hf
      have hpred := List.find?_some hf
      unfold hasChunkDB saveChunkDB
      simp only [decide_eq_true_eq]
      rw [List.countP_pos]
      exact ⟨p, hmem, hpred⟩
  · intro hnone
    unfold getCachedChunksCount saveChunkDB
    exact length_jsMapSet_new db.chunks id data hnone

/-- Witness for C8 at a concrete previously-absent id. -/
theorem saveChunk_roundTrip_witness :
    getChunkDB (saveChunkDB db0 3 (cChunk 0 2)) 3 = some (cChunk 0 2) ∧
    hasChunkDB (saveChunkDB db0 3 (cChunk 0 2)) 3 = true ∧
    getCachedChunksCount (saveChunkDB db0 3 (cChunk 0 2)) = getCachedChunksCount db0 + 1 := by
  have h := saveChunk_roundTrip db0 3 (cChunk 0 2)
  exact ⟨h.1, h.2.1, h.2.2 rfl⟩

/-! ## Claim C9: falsy stored values read back as absent -/

/-- Claim C9: the store's getters conflate falsy stored values with
absence: `saveMetadataHash("")` stores the empty string in the `"hash"`
slot, yet `getMetadataHash()` returns `null`, because presence is decided
by the truthiness of the retrieved value (`hash || null`); any non-empty
(truthy) string is returned unchanged. (`getMetadata` uses the same
`|| null` coercion; a stored metadata descriptor is a JS object and
objects are always truthy, so for it the coercion only matters for falsy
descriptors, which cannot be produced by `saveMetadata`.) -/
theorem metadataHash_truthiness (db : DBState) :
    (saveMetadataHashDB db "").metaHash = some "" ∧
    getMetadataHashDB (saveMetadataHashDB db "") = none ∧
    ∀ h : String, h ≠ "" → getMetadataHashDB (saveMetadataHashDB db h) = some h := by
  refine ⟨rfl, rfl, ?_⟩
  intro h hne
  simp [getMetadataHashDB, saveMetadataHashDB, hne]

/-- Witness for C9's hypothesis-bearing conjunct at a concrete hash. -/
theorem metadataHash_truthiness_witness :
    getMetadataHashDB (saveMetadataHashDB db0 "ab") = some "ab" :=
  (metadataHash_truthiness db0).2.2 "ab" (by decide)

/-! ## Claim C6: missing metadata file aborts before any write -/

theorem scanFiles_fst_none (files : List UFile)
    (h : ∀ f ∈ files, strEndsWith f.name ".chunked.visualize.json" = false) :
    (scanFiles files).1 = none := by
  unfold scanFiles
  suffices haux : ∀ acc : List (String × UFile),
      (files.foldl scanStep (none, acc)).1 = none by exact haux []
  induction files with
  | nil => intro acc; rfl
  | cons f t ih =>
    intro acc
    have hf : strEndsWith f.name ".chunked.visualize.json" = false := h f (by simp)
    have ht : ∀ g ∈ t, strEndsWith g.name ".chunked.visualize.json" = false :=
      fun g hg => h g (by simp [hg])
    have hstep : ∃ acc2, scanStep (none, acc) f = (none, acc2) := by
      unfold scanStep
      rw [if_neg (by simp [hf])]
      split
      · exact ⟨_, rfl⟩
      · exact ⟨acc, rfl⟩
    obtain ⟨acc2, hacc2⟩ := hstep
    rw [List.foldl_cons, hacc2]
    exact ih ht acc2

/-- Claim C6: for every uploaded file collection containing no file whose
name ends with `.chunked.visualize.json`, ingest fails with the
missing-metadata-file error, and the failure occurs before any write to
the persistent store: the whole state (metadata, hash and chunk
collections, resident tier) is unchanged and the trace holds no write
event. -/
theorem loadAllData_missing_metadata (st : AppState) (files : List UFile)
    (h : ∀ f ∈ files, strEndsWith f.name ".chunked.visualize.json" = false) :
    loadAllData st files = (st, .errMissingMetadataFile, [Ev.evProgress 0]) := by
  have hs := scanFiles_fst_none files h
  unfold loadAllData
  simp [hs]

/-- Witness for C6: a collection holding only a chunk file. -/
theorem loadAllData_missing_metadata_witness :
    loadAllData ⟨db0, none, []⟩ [⟨"chunk_0.json", "h0", FContent.chunkText (cChunk 0 2)⟩]
      = (⟨db0, none, []⟩, .errMissingMetadataFile, [Ev.evProgress 0]) :=
  loadAllData_missing_metadata ⟨db0, none, []⟩ _ (by decide)

/-! ## Range-merge lemmas -/

theorem find?_append_update (l : List (String × CurrencyData)) (coin : String)
    (F : CurrencyData → CurrencyData) :
    (l.map (fun p => if p.1 = coin then (p.1, F p.2) else p)).find?
        (fun p => decide (p.1 = coin))
      = (l.find? (fun p => decide (p.1 = coin))).map (fun p => (p.1, F p.2)) := by
  induction l with
  | nil => simp
  | cons p t ih =>
    by_cases hp : p.1 = coin
    · rw [List.map_cons, if_pos hp, List.find?_cons_of_pos _ (by simp [hp]),
        List.find?_cons_of_pos _ (by simp [hp])]
      rfl
    · rw [List.map_cons, if_neg hp, List.find?_cons_of_neg _ (by simp [hp]),
        List.find?_cons_of_neg _ (by simp [hp])]
      exact ih

theorem find?_ne_update (l : List (String × CurrencyData)) (coin coin' : String)
    (F : CurrencyData → CurrencyData) (hne : coin' ≠ coin) :
    (l.map (fun p => if p.1 = coin then (p.1, F p.2) else p)).find?
        (fun p => decide (p.1 = coin'))
      = l.find? (fun p => decide (p.1 = coin')) := by
  induction l with
  | nil => simp
  | cons p t ih =>
    by_cases hp : p.1 = coin
    · have h2 : (decide (p.1 = coin')) = false := by simp [hp, Ne.symm hne]
      rw [List.map_cons, if_pos hp, List.find?_cons_of_neg _ (by simp [hp, Ne.symm hne]),
        List.find?_cons_of_neg _ (by simp [h2])]
      exact ih
    · rw [List.map_cons, if_neg hp]
      by_cases hp' : p.1 = coin'
      · rw [List.find?_cons_of_pos _ (by simp [hp']), List.find?_cons_of_pos _ (by simp [hp'])]
      · rw [List.find?_cons_of_neg _ (by simp [hp']), List.find?_cons_of_neg _ (by simp [hp'])]
        exact ih

theorem getCoin_appendCoinSlices_self (m : ChunkData) (coin : String) (ma np cm : List Int)
    (hpres : (m.coinSeries.find? (fun p => decide (p.1 = coin))).isSome = true) :
    getCoin (appendCoinSlices m coin ma np cm) coin =
      ⟨(getCoin m coin).movingAverages ++ ma,
       (getCoin m coin).normalizedPrices ++ np,
       (getCoin m coin).cumulativeMeans ++ cm⟩ := by
  rcases hf : m.coinSeries.find? (fun p => decide (p.1 = coin)) with _ | q
  · rw [hf] at hpres; simp at hpres
  · unfold getCoin appendCoinSlices
    rw [find?_append_update m.coinSeries coin
      (fun cd => ⟨cd.movingAverages ++ ma, cd.normalizedPrices ++ np,
                  cd.cumulativeMeans ++ cm⟩), hf]
    rfl

theorem getCoin_appendCoinSlices_ne (m : ChunkData) (coin coin' : String)
    (ma np cm : List Int) (hne : coin' ≠ coin) :
    getCoin (appendCoinSlices m coin ma np cm) coin' = getCoin m coin' := by
  unfold getCoin appendCoinSlices
  rw [find?_ne_update m.coinSeries coin coin'
    (fun cd => ⟨cd.movingAverages ++ ma, cd.normalizedPrices ++ np,
                cd.cumulativeMeans ++ cm⟩) hne]

theorem isSome_find?_appendCoinSlices (m : ChunkData) (coin coin' : String)
    (ma np cm : List Int) :
    ((appendCoinSlices m coin ma np cm).coinSeries.find?
        (fun p => decide (p.1 = coin'))).isSome
      = (m.coinSeries.find? (fun p => decide (p.1 = coin'))).isSome := by
  by_cases h : coin' = coin
  · subst h
    unfold appendCoinSlices
    rw [find?_append_update m.coinSeries coin'
      (fun cd => ⟨cd.movingAverages ++ ma, cd.normalizedPrices ++ np,
                  cd.cumulativeMeans ++ cm⟩)]
    simp
  · unfold appendCoinSlices
    rw [find?_ne_update m.coinSeries coin coin'
      (fun cd => ⟨cd.movingAverages ++ ma, cd.normalizedPrices ++ np,
                  cd.cumulativeMeans ++ cm⟩) h]

theorem avgMaSpread_coinFold (chunk : ChunkData) (ls le : Nat) :
    ∀ (l : List String) (m : ChunkData),
      (l.foldl (coinFoldStep chunk ls le) m).avgMaSpread = m.avgMaSpread := by
  intro l
  induction l with
  | nil => intro m; rfl
  | cons x t ih =>
    intro m
    rw [List.foldl_cons, ih]
    rfl

theorem isSome_find?_coinFold (chunk : ChunkData) (ls le : Nat) :
    ∀ (l : List String) (m : ChunkData) (c : String),
      ((l.foldl (coinFoldStep chunk ls le) m).coinSeries.find?
          (fun p => decide (p.1 = c))).isSome
        = (m.coinSeries.find? (fun p => decide (p.1 = c))).isSome := by
  intro l
  induction l with
  | nil => intro m c; rfl
  | cons x t ih =>
    intro m c
    rw [List.foldl_cons, ih]
    show ((appendCoinSlices m x _ _ _).coinSeries.find? _).isSome = _
    rw [isSome_find?_appendCoinSlices]

theorem getCoin_coinFold_notMem (chunk : ChunkData) (ls le : Nat) :
    ∀ (l : List String) (m : ChunkData) (c : String), c ∉ l →
      getCoin (l.foldl (coinFoldStep chunk ls le) m) c = getCoin m c := by
  intro l
  induction l with
  | nil => intro m c _; rfl
  | cons x t ih =>
    intro m c h
    have hxc : c ≠ x := fun hh => h (by simp [hh])
    rw [List.foldl_cons, ih _ c (fun hm => h (List.mem_cons_of_mem _ hm))]
    show getCoin (appendCoinSlices m x _ _ _) c = _
    exact getCoin_appendCoinSlices_ne m x c _ _ _ hxc

theorem getCoin_coinFold (chunk : ChunkData) (ls le : Nat) :
    ∀ (l : List String) (m : ChunkData) (c : String),
      (m.coinSeries.find? (fun p => decide (p.1 = c))).isSome = true →
      l.count c ≤ 1 → c ∈ l →
      getCoin (l.foldl (coinFoldStep chunk ls le) m) c =
        ⟨(getCoin m c).movingAverages ++ jsSlice (getCoin chunk c).movingAverages ls le,
         (getCoin m c).normalizedPrices ++ jsSlice (getCoin chunk c).normalizedPrices ls le,
         (getCoin m c).cumulativeMeans ++ jsSlice (getCoin chunk c).cumulativeMeans ls le⟩ := by
  intro l
  induction l with
  | nil => intro m c _ _ hmem; simp at hmem
  | cons x t ih =>
    intro m c hpres hcnt hmem
    rw [List.foldl_cons]
    by_cases hx : c = x
    · subst hx
      have hnott : c ∉ t := by
        rw [← List.count_eq_zero]
        rw [List.count_cons] at hcnt
        simp at hcnt
        omega
      rw [getCoin_coinFold_notMem chunk ls le t _ c hnott]
      show getCoin (appendCoinSlices m c _ _ _) c = _
      exact getCoin_appendCoinSlices_self m c _ _ _ hpres
    · have hcc : c ≠ x := hx
      have hcnt' : t.count c ≤ 1 := by
        rw [List.count_cons] at hcnt
        simp [Ne.symm hx] at hcnt
        omega
      have hmem' : c ∈ t := by
        rcases List.mem_cons.mp hmem with h | h
        · exact absurd h hcc
        · exact h
      have hpres' : (((coinFoldStep chunk ls le m x).coinSeries.find?
          (fun p => decide (p.1 = c))).isSome) = true := by
        show ((appendCoinSlices m x _ _ _).coinSeries.find? _).isSome = true
        rw [isSome_find?_appendCoinSlices]
        exact hpres
      have hstepc : getCoin (coinFoldStep chunk ls le m x) c = getCoin m c := by
        show getCoin (appendCoinSlices m x _ _ _) c = _
        exact getCoin_appendCoinSlices_ne m x c _ _ _ hcc
      rw [ih _ c hpres' hcnt' hmem', hstepc]

theorem getCoin_setSpread (m : ChunkData) (x : List Int) (c : String) :
    getCoin { m with avgMaSpread := x } c = getCoin m c := rfl

theorem isSome_find?_addChunkSlices (coins : List String) (chunk : ChunkData)
    (ls le : Nat) (m : ChunkData) (c : String) :
    ((addChunkSlices coins chunk ls le m).coinSeries.find?
        (fun p => decide (p.1 = c))).isSome
      = (m.coinSeries.find? (fun p => decide (p.1 = c))).isSome := by
  show ((coins.foldl (coinFoldStep chunk ls le) m).coinSeries.find?
      (fun p => decide (p.1 = c))).isSome = _
  rw [isSome_find?_coinFold]

theorem seriesOf_addChunkSlices (coins : List String) (chunk : ChunkData)
    (ls le : Nat) (m : ChunkData) (sel : SeriesSel)
    (hnd : coins.Nodup) (hv : selValid coins sel)
    (hpres : ∀ c ∈ coins,
      (m.coinSeries.find? (fun p => decide (p.1 = c))).isSome = true) :
    seriesOf (addChunkSlices coins chunk ls le m) sel
      = seriesOf m sel ++ jsSlice (seriesOf chunk sel) ls le := by
  have hcnt : ∀ c, coins.count c ≤ 1 := List.nodup_iff_count_le_one.mp hnd
  cases sel with
  | selSpread =>
    show (addChunkSlices coins chunk ls le m).avgMaSpread = _
    simp only [addChunkSlices]
    rw [avgMaSpread_coinFold]
    rfl
  | selMA c =>
    have hc : c ∈ coins := hv
    show (getCoin (addChunkSlices coins chunk ls le m) c).movingAverages = _
    unfold addChunkSlices
    rw [getCoin_setSpread,
      getCoin_coinFold chunk ls le coins m c (hpres c hc) (hcnt c) hc]
    rfl
  | selNP c =>
    have hc : c ∈ coins := hv
    show (getCoin (addChunkSlices coins chunk ls le m) c).normalizedPrices = _
    unfold addChunkSlices
    rw [getCoin_setSpread,
      getCoin_coinFold chunk ls le coins m c (hpres c hc) (hcnt c) hc]
    rfl
  | selCM c =>
    have hc : c ∈ coins := hv
    show (getCoin (addChunkSlices coins chunk ls le m) c).cumulativeMeans = _
    unfold addChunkSlices
    rw [getCoin_setSpread,
      getCoin_coinFold chunk ls le coins m c (hpres c hc) (hcnt c) hc]
    rfl

theorem seriesOf_mergeFold (coins : List String) (loaded : List (Nat × ChunkData))
    (cs s e : Nat) (sel : SeriesSel) (hnd : coins.Nodup) (hv : selValid coins sel) :
    ∀ (ids : List Nat) (m : ChunkData),
      (∀ c ∈ coins,
        (m.coinSeries.find? (fun p => decide (p.1 = c))).isSome = true) →
      seriesOf (ids.foldl (chunkMergeStep coins loaded cs s e) m) sel
        = seriesOf m sel ++ (ids.map (chunkContribution loaded cs s e sel)).join := by
  intro ids
  induction ids with
  | nil => intro m _; simp
  | cons id t ih =>
    intro m hpres
    rw [List.foldl_cons, List.map_cons]
    rcases hg : jsMapGet loaded id with _ | chunk
    · have hstep : chunkMergeStep coins loaded cs s e m id = m := by
        simp [chunkMergeStep, hg]
      have hcontrib : chunkContribution loaded cs s e sel id = [] := by
        simp [chunkContribution, hg]
      rw [hstep, hcontrib, ih m hpres]
      simp
    · have hstep : chunkMergeStep coins loaded cs s e m id =
          addChunkSlices coins chunk (s - id * cs) (min cs (e - id * cs)) m := by
        simp [chunkMergeStep, hg]
      have hcontrib : chunkContribution loaded cs s e sel id =
          jsSlice (seriesOf chunk sel) (s - id * cs) (min cs (e - id * cs)) := by
        simp [chunkContribution, hg]
      have hpres' : ∀ c ∈ coins,
          (((addChunkSlices coins chunk (s - id * cs) (min cs (e - id * cs)) m).coinSeries.find?
            (fun p => decide (p.1 = c))).isSome) = true := by
        intro c hc
        rw [isSome_find?_addChunkSlices]
        exact hpres c hc
      rw [hstep, hcontrib, ih _ hpres',
        seriesOf_addChunkSlices coins chunk _ _ m sel hnd hv hpres]
      simp [List.append_assoc]

theorem find?_initMerged (coins : List String) (c : String) :
    ((coins.map (fun x => (x, emptyCurrency))).find? (fun p => decide (p.1 = c)))
      = if c ∈ coins then some (c, emptyCurrency) else none := by
  induction coins with
  | nil => simp
  | cons x t ih =>
    by_cases hx : x = c
    · subst hx
      rw [List.map_cons, List.find?_cons_of_pos _ (by simp)]
      simp
    · rw [List.map_cons, List.find?_cons_of_neg _ (by simp [hx]), ih]
      simp [List.mem_cons, Ne.symm hx]

theorem getCoin_initMerged (coins : List String) (c : String) :
    getCoin ⟨coins.map (fun x => (x, emptyCurrency)), []⟩ c = emptyCurrency := by
  unfold getCoin
  show (match (coins.map (fun x => (x, emptyCurrency))).find?
      (fun p => decide (p.1 = c)) with
    | some p => p.2
    | none => emptyCurrency) = emptyCurrency
  rw [find?_initMerged]
  by_cases hc : c ∈ coins <;> simp [hc]

/-- Per-series characterization of `getDataForRange`: each output series
is the concatenation, in ascending chunk-id order over the visited ids,
of the contribution of each chunk (its local slice if resident, nothing
otherwise). -/
theorem seriesOf_getDataForRange (meta : Metadata) (loaded : List (Nat × ChunkData))
    (s e : Nat) (sel : SeriesSel) (hnd : meta.coins.Nodup) (hv : selValid meta.coins sel) :
    seriesOf (getDataForRange meta loaded s e) sel
      = ((visitedChunkIds meta.chunkSize s e).map
          (chunkContribution loaded meta.chunkSize s e sel)).join := by
  simp only [getDataForRange]
  have hpres : ∀ c ∈ meta.coins,
      ((ChunkData.mk (meta.coins.map (fun x => (x, emptyCurrency))) []).coinSeries.find?
        (fun p => decide (p.1 = c))).isSome = true := by
    intro c hc
    show ((meta.coins.map (fun x => (x, emptyCurrency))).find?
      (fun p => decide (p.1 = c))).isSome = true
    rw [find?_initMerged]
    simp [hc]
  rw [seriesOf_mergeFold meta.coins loaded meta.chunkSize s e sel hnd hv _ _ hpres]
  have hinit : seriesOf (ChunkData.mk (meta.coins.map (fun x => (x, emptyCurrency))) []) sel
      = [] := by
    cases sel with
    | selSpread => rfl
    | selMA c =>
      show (getCoin ⟨meta.coins.map (fun x => (x, emptyCurrency)), []⟩ c).movingAverages = []
      rw [getCoin_initMerged]
      rfl
    | selNP c =>
      show (getCoin ⟨meta.coins.map (fun x => (x, emptyCurrency)), []⟩ c).normalizedPrices = []
      rw [getCoin_initMerged]
      rfl
    | selCM c =>
      show (getCoin ⟨meta.coins.map (fun x => (x, emptyCurrency)), []⟩ c).cumulativeMeans = []
      rw [getCoin_initMerged]
      rfl
  rw [hinit]
  simp

theorem length_jsSlice {α : Type} (l : List α) (a b : Nat) :
    (jsSlice l a b).length = min (b - a) (l.length - a) := by
  simp [jsSlice]

theorem join_contribution_filterMap (loaded : List (Nat × ChunkData))
    (cs s e : Nat) (sel : SeriesSel) : ∀ ids : List Nat,
    (ids.map (chunkContribution loaded cs s e sel)).join
      = (ids.filterMap (fun id => (jsMapGet loaded id).map (fun chunk =>
          jsSlice (seriesOf chunk sel) (s - id * cs) (min cs (e - id * cs))))).join := by
  intro ids
  induction ids with
  | nil => rfl
  | cons id t ih =>
    rw [List.map_cons, List.filterMap_cons]
    rcases hg : jsMapGet loaded id with _ | chunk
    · have hc : chunkContribution loaded cs s e sel id = [] := by
        simp [chunkContribution, hg]
      simp [hg, hc, ih]
    · have hc : chunkContribution loaded cs s e sel id
          = jsSlice (seriesOf chunk sel) (s - id * cs) (min cs (e - id * cs)) := by
        simp [chunkContribution, hg]
      simp [hg, hc, ih]

/-- Sample-data helper: every series of `cChunk base len` has length `len`. -/
theorem seriesOf_cChunk_length (base : Int) (len : Nat) (sel : SeriesSel)
    (hv : selValid ["A"] sel) : (seriesOf (cChunk base len) sel).length = len := by
  have hg : getCoin (cChunk base len) "A" = cCur base len := rfl
  rcases sel with c | c | c | _
  · have hc : c = "A" := by simpa [selValid] using hv
    subst hc
    show ((getCoin (cChunk base len) "A").movingAverages).length = len
    rw [hg]
    show (cSeries base len).length = len
    rw [cSeries, List.length_map, List.length_range]
  · have hc : c = "A" := by simpa [selValid] using hv
    subst hc
    show ((getCoin (cChunk base len) "A").normalizedPrices).length = len
    rw [hg]
    show (cSeries (base + 1000) len).length = len
    rw [cSeries, List.length_map, List.length_range]
  · have hc : c = "A" := by simpa [selValid] using hv
    subst hc
    show ((getCoin (cChunk base len) "A").cumulativeMeans).length = len
    rw [hg]
    show (cSeries (base + 2000) len).length = len
    rw [cSeries, List.length_map, List.length_range]
  · show (cSeries (base + 3000) len).length = len
    rw [cSeries, List.length_map, List.length_range]

/-! ## Claim C3: partial availability -/

/-- Claim C3: for every range read, `getDataForRange` returns, for each
series, exactly the concatenation of the available (resident) chunks'
local slices in ascending chunk-id order: a chunk absent from the
resident tier is skipped (`if (!chunk) continue`), contributing nothing —
no error is raised (the function is total) and no placeholder values are
inserted for the gap. -/
theorem getDataForRange_partial (meta : Metadata) (loaded : List (Nat × ChunkData))
    (s e : Nat) (sel : SeriesSel) (hnd : meta.coins.Nodup) (hv : selValid meta.coins sel) :
    seriesOf (getDataForRange meta loaded s e) sel
      = ((visitedChunkIds meta.chunkSize s e).filterMap (fun id =>
          (jsMapGet loaded id).map (fun chunk =>
            jsSlice (seriesOf chunk sel) (s - id * meta.chunkSize)
              (min meta.chunkSize (e - id * meta.chunkSize))))).join := by
  rw [seriesOf_getDataForRange meta loaded s e sel hnd hv, join_contribution_filterMap]

/-- Witness for C3: chunk 1 missing while chunks 0 and 2 are resident. -/
theorem getDataForRange_partial_witness :
    seriesOf (getDataForRange meta100 loadedGap 0 300) SeriesSel.selSpread
      = ((visitedChunkIds meta100.chunkSize 0 300).filterMap (fun id =>
          (jsMapGet loadedGap id).map (fun chunk =>
            jsSlice (seriesOf chunk SeriesSel.selSpread) (0 - id * meta100.chunkSize)
              (min meta100.chunkSize (300 - id * meta100.chunkSize))))).join :=
  getDataForRange_partial meta100 loadedGap 0 300 SeriesSel.selSpread (by decide) trivial

/-! ## Claim C10: merged series have uniform lengths -/

/-- Claim C10: for every metadata (with unique coins, per the data-model
invariant), every resident chunk map in which each resident chunk's
arrays (every coin's three series and `avgMaSpread`) have equal length,
and every requested range, the merged `ChunkData` returned by
`getDataForRange` has equal-length arrays across all coins' three series
and `avgMaSpread`: each visited resident chunk contributes its slice
length to every series uniformly, and skipped chunks contribute zero to
all series uniformly. -/
theorem getDataForRange_uniform (meta : Metadata) (loaded : List (Nat × ChunkData))
    (s e : Nat) (hnd : meta.coins.Nodup)
    (huni : ∀ p ∈ loaded, ∀ sel, selValid meta.coins sel →
      (seriesOf p.2 sel).length = p.2.avgMaSpread.length) :
    ∀ sel sel', selValid meta.coins sel → selValid meta.coins sel' →
      (seriesOf (getDataForRange meta loaded s e) sel).length
        = (seriesOf (getDataForRange meta loaded s e) sel').length := by
  intro sel sel' hv hv'
  rw [seriesOf_getDataForRange meta loaded s e sel hnd hv,
      seriesOf_getDataForRange meta loaded s e sel' hnd hv',
      List.length_flatten, List.length_flatten, List.map_map, List.map_map]
  congr 1
  apply List.map_congr_left
  intro id _
  show (chunkContribution loaded meta.chunkSize s e sel id).length
      = (chunkContribution loaded meta.chunkSize s e sel' id).length
  rcases hg : jsMapGet loaded id with _ | cd
  · simp [chunkContribution, hg]
  · have hmem : cd ∈ loaded.map (fun p => p.2) := by
      unfold jsMapGet at hg
      rcases hf : loaded.find? (fun p => decide (p.1 = id)) with _ | q
      · rw [hf] at hg; simp at hg
      · rw [hf] at hg
        simp only [Option.map_some', Option.some.injEq] at hg
        exact hg ▸ List.mem_map_of_mem _ (List.mem_of_find?_eq_some hf)
    obtain ⟨p, hp, hpcd⟩ := List.mem_map.mp hmem
    have h1 := huni p hp sel hv
    have h2 := huni p hp sel' hv'
    rw [hpcd] at h1 h2
    simp [chunkContribution, hg, length_jsSlice, h1, h2]

/-- Witness for C10 on the sample dataset. -/
theorem getDataForRange_uniform_witness :
    (seriesOf (getDataForRange meta100 loaded100 30 220) (SeriesSel.selMA "A")).length
      = (seriesOf (getDataForRange meta100 loaded100 30 220) SeriesSel.selSpread).length := by
  have huni : ∀ p ∈ loaded100, ∀ sel, selValid meta100.coins sel →
      (seriesOf p.2 sel).length = p.2.avgMaSpread.length := by
    intro p hp sel hv
    have hsp : ∀ (base : Int) (len : Nat), (cChunk base len).avgMaSpread.length = len := by
      intro base len
      show (cSeries (base + 3000) len).length = len
      rw [cSeries, List.length_map, List.length_range]
    simp only [loaded100, List.mem_cons, List.not_mem_nil, or_false] at hp
    rcases hp with rfl | rfl | rfl
    · rw [show ((0 : Nat), cChunk 0 100).2 = cChunk 0 100 from rfl,
        seriesOf_cChunk_length 0 100 sel hv, hsp]
    · rw [show ((1 : Nat), cChunk 10000 100).2 = cChunk 10000 100 from rfl,
        seriesOf_cChunk_length 10000 100 sel hv, hsp]
    · rw [show ((2 : Nat), cChunk 20000 50).2 = cChunk 20000 50 from rfl,
        seriesOf_cChunk_length 20000 50 sel hv, hsp]
  exact getDataForRange_uniform meta100 loaded100 30 220 (by decide) huni
    (SeriesSel.selMA "A") SeriesSel.selSpread (by decide) trivial

/-! ## Claim C1: range merge for readRange(50, 150) -/

/-- Claim C1: for a dataset with `chunkSize = 100`, `totalPoints = 250`
and 3 chunks all resident, `getDataForRange(50, 150)` returns, for each
series (every coin's three sub-series and `avgMaSpread`), exactly the
concatenation of chunk 0's elements at local indices `[50, 100)` followed
by chunk 1's elements at local indices `[0, 50)` — the per-chunk slice
bounds being `localStart = max(0, startIndex - chunkStart)` and
`localEnd = min(chunkSize, endIndex - chunkStart)`, appended in ascending
chunk-id order — and when the resident chunks' series have the full
chunk length 100, each returned series has exactly 100 points. -/
theorem getDataForRange_merge_50_150 (meta : Metadata)
    (loaded : List (Nat × ChunkData)) (c0 c1 c2 : ChunkData)
    (hcs : meta.chunkSize = 100) (htp : meta.totalPoints = 250)
    (hn : meta.chunks.length = 3) (hnd : meta.coins.Nodup)
    (h0 : jsMapGet loaded 0 = some c0) (h1 : jsMapGet loaded 1 = some c1)
    (h2 : jsMapGet loaded 2 = some c2) :
    ∀ sel, selValid meta.coins sel →
      seriesOf (getDataForRange meta loaded 50 150) sel
        = jsSlice (seriesOf c0 sel) 50 100 ++ jsSlice (seriesOf c1 sel) 0 50
      ∧ ((seriesOf c0 sel).length = 100 → (seriesOf c1 sel).length = 100 →
          (seriesOf (getDataForRange meta loaded 50 150) sel).length = 100) := by
  intro sel hv
  have hvis : visitedChunkIds meta.chunkSize 50 150 = [0, 1] := by
    rw [hcs]; decide
  have hmain : seriesOf (getDataForRange meta loaded 50 150) sel
      = jsSlice (seriesOf c0 sel) 50 100 ++ jsSlice (seriesOf c1 sel) 0 50 := by
    rw [seriesOf_getDataForRange meta loaded 50 150 sel hnd hv, hvis, hcs]
    simp [chunkContribution, h0, h1]
  refine ⟨hmain, fun hl0 hl1 => ?_⟩
  rw [hmain, List.length_append, length_jsSlice, length_jsSlice, hl0, hl1]
  decide

/-- Witness for C1 on the sample dataset (illustrated on `avgMaSpread`). -/
theorem getDataForRange_merge_50_150_witness :
    seriesOf (getDataForRange meta100 loaded100 50 150) SeriesSel.selSpread
      = jsSlice (seriesOf (cChunk 0 100) SeriesSel.selSpread) 50 100
        ++ jsSlice (seriesOf (cChunk 10000 100) SeriesSel.selSpread) 0 50
    ∧ (seriesOf (getDataForRange meta100 loaded100 50 150) SeriesSel.selSpread).length = 100 := by
  have h := getDataForRange_merge_50_150 meta100 loaded100
    (cChunk 0 100) (cChunk 10000 100) (cChunk 20000 50)
    rfl rfl rfl (by decide) rfl rfl rfl SeriesSel.selSpread trivial
  exact ⟨h.1, h.2 (seriesOf_cChunk_length 0 100 _ trivial)
    (seriesOf_cChunk_length 10000 100 _ trivial)⟩

/-! ## Claim C2: chunk ids visited by a range read -/

/-- Claim C2 counterexample: the claim's bound
`endChunk = floor((endIndex - 1) / chunkSize)` would make
`readRange(0, chunkSize)` touch only chunk 0, but the code computes
`endChunkId = Math.floor(end / chunkSize)`: with `chunkSize = 100`, the
read `(0, 100)` visits chunk ids `[0, 1]`, not `[0]`, and
`loadChunksForRange(0, 100)` on an empty resident tier over the sample
3-chunk dataset loads chunks 0 and 1. -/
theorem visitedChunkIds_boundary_cex :
    visitedChunkIds 100 0 100 = [0, 1]
    ∧ visitedChunkIds 100 0 100 ≠ [0]
    ∧ chunksToLoad ([] : List (Nat × ChunkData)) meta100 0 100 = [0, 1] := by
  decide

/-- Claim C2 (amended): the range reader visits exactly the chunk ids
from `floor(startIndex / chunkSize)` to `floor(endIndex / chunkSize)`
inclusive (`loadChunksForRange` additionally skips ids beyond the known
chunk count and already-resident ids). Hence `readRange(0, chunkSize)`
touches chunks 0 and 1 — the extra chunk contributing an empty slice, so
exactly `chunkSize` points are returned per series — and, for
`chunkSize ≥ 2`, `readRange(chunkSize - 1, chunkSize + 1)` touches
chunks 0 and 1 and returns exactly 2 points per series. -/
theorem rangeReader_boundary_amended (meta : Metadata)
    (loaded : List (Nat × ChunkData)) (c0 c1 : ChunkData)
    (hcs2 : 2 ≤ meta.chunkSize) (hnd : meta.coins.Nodup)
    (h0 : jsMapGet loaded 0 = some c0) (h1 : jsMapGet loaded 1 = some c1)
    (hl0 : ∀ sel, selValid meta.coins sel → (seriesOf c0 sel).length = meta.chunkSize)
    (hl1 : ∀ sel, selValid meta.coins sel → (seriesOf c1 sel).length = meta.chunkSize) :
    (∀ s e i : Nat, i ∈ visitedChunkIds meta.chunkSize s e ↔
        s / meta.chunkSize ≤ i ∧ i ≤ e / meta.chunkSize)
    ∧ visitedChunkIds meta.chunkSize 0 meta.chunkSize = [0, 1]
    ∧ (∀ sel, selValid meta.coins sel →
        (seriesOf (getDataForRange meta loaded 0 meta.chunkSize) sel).length
          = meta.chunkSize)
    ∧ visitedChunkIds meta.chunkSize (meta.chunkSize - 1) (meta.chunkSize + 1) = [0, 1]
    ∧ (∀ sel, selValid meta.coins sel →
        (seriesOf (getDataForRange meta loaded (meta.chunkSize - 1)
          (meta.chunkSize + 1)) sel).length = 2) := by
  have hcs0 : 0 < meta.chunkSize := by omega
  have hpart1 : ∀ s e i : Nat, i ∈ visitedChunkIds meta.chunkSize s e ↔
      s / meta.chunkSize ≤ i ∧ i ≤ e / meta.chunkSize := by
    intro s e i
    simp only [visitedChunkIds, List.mem_map, List.mem_range]
    constructor
    · rintro ⟨k, hk, rfl⟩
      omega
    · rintro ⟨hle, hge⟩
      exact ⟨i - s / meta.chunkSize, by omega, by omega⟩
  have hvis1 : visitedChunkIds meta.chunkSize 0 meta.chunkSize = [0, 1] := by
    unfold visitedChunkIds
    rw [Nat.zero_div, Nat.div_self hcs0]
    decide
  have hvis2 : visitedChunkIds meta.chunkSize (meta.chunkSize - 1)
      (meta.chunkSize + 1) = [0, 1] := by
    unfold visitedChunkIds
    have hd1 : (meta.chunkSize - 1) / meta.chunkSize = 0 := Nat.div_eq_of_lt (by omega)
    have hd2 : (meta.chunkSize + 1) / meta.chunkSize = 1 := by
      have heq : meta.chunkSize + 1 = 1 + meta.chunkSize * 1 := by ring
      rw [heq, Nat.add_mul_div_left _ _ hcs0, Nat.div_eq_of_lt (by omega)]
    rw [hd1, hd2]
    decide
  refine ⟨hpart1, hvis1, ?_, hvis2, ?_⟩
  · intro sel hv
    rw [seriesOf_getDataForRange meta loaded 0 meta.chunkSize sel hnd hv, hvis1,
      List.length_flatten]
    have e0 : (chunkContribution loaded meta.chunkSize 0 meta.chunkSize sel 0).length
        = meta.chunkSize := by
      simp [chunkContribution, h0, length_jsSlice, hl0 sel hv] <;> omega
    have e1 : (chunkContribution loaded meta.chunkSize 0 meta.chunkSize sel 1).length
        = 0 := by
      simp [chunkContribution, h1, length_jsSlice] <;> omega
    simp [e0, e1]
  · intro sel hv
    rw [seriesOf_getDataForRange meta loaded (meta.chunkSize - 1) (meta.chunkSize + 1)
      sel hnd hv, hvis2, List.length_flatten]
    have e0 : (chunkContribution loaded meta.chunkSize (meta.chunkSize - 1)
        (meta.chunkSize + 1) sel 0).length = 1 := by
      simp [chunkContribution, h0, length_jsSlice, hl0 sel hv] <;> omega
    have e1 : (chunkContribution loaded meta.chunkSize (meta.chunkSize - 1)
        (meta.chunkSize + 1) sel 1).length = 1 := by
      simp [chunkContribution, h1, length_jsSlice, hl1 sel hv] <;> omega
    simp [e0, e1]

/-- Witness for the amended C2 on the sample dataset. -/
theorem rangeReader_boundary_amended_witness :
    visitedChunkIds meta100.chunkSize 0 meta100.chunkSize = [0, 1]
    ∧ (seriesOf (getDataForRange meta100 loaded100 (meta100.chunkSize - 1)
        (meta100.chunkSize + 1)) SeriesSel.selSpread).length = 2 := by
  have h := rangeReader_boundary_amended meta100 loaded100
    (cChunk 0 100) (cChunk 10000 100) (by decide) (by decide) rfl rfl
    (fun sel hv => seriesOf_cChunk_length 0 100 sel hv)
    (fun sel hv => seriesOf_cChunk_length 10000 100 sel hv)
  exact ⟨h.2.1, h.2.2.2.2 SeriesSel.selSpread trivial⟩

/-! ## Ingest-pipeline lemmas -/

theorem runItems_meta (cfm : List (String × UFile)) :
    ∀ (l : List ChunkInfo) (db : DBState),
      (runItems cfm db l).1.metaCurrent = db.metaCurrent
      ∧ (runItems cfm db l).1.metaHash = db.metaHash := by
  intro l
  induction l with
  | nil => intro db; exact ⟨rfl, rfl⟩
  | cons info rest ih =>
    intro db
    rcases hm : matchChunkFile cfm info with _ | f
    · simp [runItems, hm]
    · rcases hp : parseChunkText f.content with _ | cd
      · simp [runItems, hm, hp]
      · simp only [runItems, hm, hp]
        exact ih (saveChunkDB db info.id cd)

theorem runItems_no_progress (cfm : List (String × UFile)) :
    ∀ (l : List ChunkInfo) (db : DBState),
      (runItems cfm db l).2.1.filterMap progressOf = [] := by
  intro l
  induction l with
  | nil => intro db; rfl
  | cons info rest ih =>
    intro db
    rcases hm : matchChunkFile cfm info with _ | f
    · simp only [runItems, hm]
      rfl
    · rcases hp : parseChunkText f.content with _ | cd
      · simp only [runItems, hm, hp]
        rfl
      · simp only [runItems, hm, hp, List.filterMap_cons]
        simp [progressOf, ih (saveChunkDB db info.id cd)]

theorem runItems_err_ne_ok (cfm : List (String × UFile)) :
    ∀ (l : List ChunkInfo) (db : DBState) (e : IngestResult),
      (runItems cfm db l).2.2 = some e → e ≠ IngestResult.ok := by
  intro l
  induction l with
  | nil => intro db e he; simp [runItems] at he
  | cons info rest ih =>
    intro db e he
    rcases hm : matchChunkFile cfm info with _ | f
    · simp only [runItems, hm] at he
      simp only [Option.some.injEq] at he
      rw [← he]
      intro hc
      cases hc
    · rcases hp : parseChunkText f.content with _ | cd
      · simp only [runItems, hm, hp] at he
        simp only [Option.some.injEq] at he
        rw [← he]
        intro hc
        cases hc
      · simp only [runItems, hm, hp] at he
        exact ih (saveChunkDB db info.id cd) e he

theorem runItems_ok (cfm : List (String × UFile)) :
    ∀ (l : List ChunkInfo) (db : DBState),
      (∀ info ∈ l, (itemResolve cfm info).isSome = true) →
      (runItems cfm db l).2.2 = none
      ∧ (∀ id : Nat, (∀ info ∈ l, info.id ≠ id) →
          getChunkDB (runItems cfm db l).1 id = getChunkDB db id)
      ∧ (∀ info ∈ l, (l.map (fun i => i.id)).Nodup →
          getChunkDB (runItems cfm db l).1 info.id = itemResolve cfm info) := by
  intro l
  induction l with
  | nil =>
    intro db _
    exact ⟨rfl, fun id _ => rfl, fun info hmem => absurd hmem (List.not_mem_nil info)⟩
  | cons info rest ih =>
    intro db hgood
    have hres : (itemResolve cfm info).isSome = true := hgood info (by simp)
    rcases hm : matchChunkFile cfm info with _ | f
    · rw [itemResolve, hm] at hres
      simp at hres
    · rcases hp : parseChunkText f.content with _ | cd
      · rw [itemResolve, hm] at hres
        simp only [Option.some_bind, hp] at hres
        simp at hres
      · have hstep : runItems cfm db (info :: rest)
            = ((runItems cfm (saveChunkDB db info.id cd) rest).1,
               Ev.evParseChunk info.id :: Ev.evSaveChunk info.id ::
                 (runItems cfm (saveChunkDB db info.id cd) rest).2.1,
               (runItems cfm (saveChunkDB db info.id cd) rest).2.2) := by
          simp only [runItems, hm, hp]
        have hrest := ih (saveChunkDB db info.id cd)
          (fun i hi => hgood i (List.mem_cons_of_mem _ hi))
        refine ⟨by rw [hstep]; exact hrest.1, ?_, ?_⟩
        · intro id hne
          rw [hstep]
          have h1 := hrest.2.1 id (fun i hi => hne i (List.mem_cons_of_mem _ hi))
          rw [h1]
          show jsMapGet (jsMapSet db.chunks info.id cd) id = jsMapGet db.chunks id
          exact jsMapGet_set_ne db.chunks info.id id cd
            (fun hh => hne info (by simp) hh.symm)
        · intro info' hmem hnd
          have hndrest : (rest.map (fun i => i.id)).Nodup := by
            rw [List.map_cons] at hnd
            exact hnd.of_cons
          have hidnotin : info.id ∉ rest.map (fun i => i.id) := by
            rw [List.map_cons] at hnd
            exact (List.nodup_cons.mp hnd).1
          rcases List.mem_cons.mp hmem with heq | hmem'
          · subst heq
            rw [hstep]
            have h1 := hrest.2.1 info'.id (fun i hi heq2 => hidnotin
              (heq2 ▸ List.mem_map_of_mem _ hi))
            rw [h1]
            show jsMapGet (jsMapSet db.chunks info'.id cd) info'.id = itemResolve cfm info'
            rw [jsMapGet_set_self, itemResolve, hm]
            simp [hp]
          · rw [hstep]
            exact hrest.2.2 info' hmem' hndrest

theorem ingestGo_meta (cfm : List (String × UFile)) (total : Nat) :
    ∀ (fuel : Nat) (l : List ChunkInfo) (done : Nat) (db : DBState),
      l.length ≤ fuel →
      (ingestGo cfm total fuel done db l).1.metaCurrent = db.metaCurrent
      ∧ (ingestGo cfm total fuel done db l).1.metaHash = db.metaHash := by
  intro fuel
  induction fuel with
  | zero =>
    intro l done db hlen
    have hnil : l = [] := List.eq_nil_of_length_eq_zero (by omega)
    subst hnil
    simp [ingestGo]
  | succ N ih =>
    intro l done db hlen
    cases l with
    | nil => simp [ingestGo]
    | cons info rest =>
      simp only [ingestGo]
      rcases hout : (runItems cfm db (info :: rest.take 4)).2.2 with _ | err
      · rcases hout2 : ingestGo cfm total N (done + 5)
            (runItems cfm db (info :: rest.take 4)).1 (rest.drop 4) with ⟨db2, evs2, err2⟩
        have hih := ih (rest.drop 4) (done + 5) (runItems cfm db (info :: rest.take 4)).1
          (by simp only [List.length_drop]; simp at hlen; omega)
        rw [hout2] at hih
        have hmeta := runItems_meta cfm (info :: rest.take 4) db
        simp only [hout, hout2]
        exact ⟨hih.1.trans hmeta.1, hih.2.trans hmeta.2⟩
      · have hmeta := runItems_meta cfm (info :: rest.take 4) db
        simp only [hout]
        exact hmeta

theorem ingestLoop_meta (cfm : List (String × UFile)) (total : Nat)
    (l : List ChunkInfo) (done : Nat) (db : DBState) :
    (ingestLoop cfm total done db l).1.metaCurrent = db.metaCurrent
    ∧ (ingestLoop cfm total done db l).1.metaHash = db.metaHash :=
  ingestGo_meta cfm total l.length l done db (le_refl _)

theorem ingestGo_err_ne_ok (cfm : List (String × UFile)) (total : Nat) :
    ∀ (fuel : Nat) (l : List ChunkInfo) (done : Nat) (db : DBState) (e : IngestResult),
      l.length ≤ fuel →
      (ingestGo cfm total fuel done db l).2.2 = some e → e ≠ IngestResult.ok := by
  intro fuel
  induction fuel with
  | zero =>
    intro l done db e hlen he
    have hnil : l = [] := List.eq_nil_of_length_eq_zero (by omega)
    subst hnil
    simp [ingestGo] at he
  | succ N ih =>
    intro l done db e hlen he
    cases l with
    | nil => simp [ingestGo] at he
    | cons info rest =>
      simp only [ingestGo] at he
      rcases hout : (runItems cfm db (info :: rest.take 4)).2.2 with _ | err
      · rcases hout2 : ingestGo cfm total N (done + 5)
            (runItems cfm db (info :: rest.take 4)).1 (rest.drop 4) with ⟨db2, evs2, err2⟩
        rw [hout, hout2] at he
        simp only at he
        exact ih (rest.drop 4) (done + 5) _ e
          (by simp only [List.length_drop]; simp at hlen; omega)
          (by rw [hout2]; exact he)
      · rw [hout] at he
        simp only [Option.some.injEq] at he
        rw [← he]
        exact runItems_err_ne_ok cfm (info :: rest.take 4) db err hout

theorem ingestLoop_err_ne_ok (cfm : List (String × UFile)) (total : Nat)
    (l : List ChunkInfo) (done : Nat) (db : DBState) (e : IngestResult)
    (he : (ingestLoop cfm total done db l).2.2 = some e) : e ≠ IngestResult.ok :=
  ingestGo_err_ne_ok cfm total l.length l done db e (le_refl _) he

theorem ingestGo_progress (cfm : List (String × UFile)) (total : Nat) :
    ∀ (fuel : Nat) (l : List ChunkInfo) (done : Nat) (db db' : DBState) (evs : List Ev),
      l.length ≤ fuel →
      ingestGo cfm total fuel done db l = (db', evs, none) →
      evs.filterMap progressOf
        = (List.range ((l.length + 4) / 5)).map
            (fun b => jsRound100 (min (done + 5 * b + 5) total) total) := by
  intro fuel
  induction fuel with
  | zero =>
    intro l done db db' evs hlen hrun
    have hnil : l = [] := List.eq_nil_of_length_eq_zero (by omega)
    subst hnil
    simp only [ingestGo] at hrun
    injection hrun with h1 h23
    injection h23 with h2 h3
    rw [← h2]
    rfl
  | succ N ih =>
    intro l done db db' evs hlen hrun
    cases l with
    | nil =>
      simp only [ingestGo] at hrun
      injection hrun with h1 h23
      injection h23 with h2 h3
      rw [← h2]
      rfl
    | cons info rest =>
      simp only [ingestGo] at hrun
      rcases hout : (runItems cfm db (info :: rest.take 4)).2.2 with _ | err
      · rcases hout2 : ingestGo cfm total N (done + 5)
            (runItems cfm db (info :: rest.take 4)).1 (rest.drop 4) with ⟨db2, evs2, err2⟩
        rw [hout, hout2] at hrun
        simp only at hrun
        injection hrun with h1 h23
        injection h23 with h2 h3
        rw [← h2, List.filterMap_append, runItems_no_progress cfm (info :: rest.take 4) db,
          List.nil_append, List.filterMap_cons]
        have hih := ih (rest.drop 4) (done + 5)
          (runItems cfm db (info :: rest.take 4)).1 db2 evs2
          (by simp only [List.length_drop]; simp at hlen; omega)
          (by rw [hout2, ← h3])
        simp only [progressOf]
        rw [hih]
        have hk : ((info :: rest).length + 4) / 5 = ((rest.drop 4).length + 4) / 5 + 1 := by
          simp only [List.length_cons, List.length_drop]
          omega
        rw [hk, List.range_succ_eq_map, List.map_cons]
        have htail : ((List.range (((rest.drop 4).length + 4) / 5)).map Nat.succ).map
              (fun b => jsRound100 (min (done + 5 * b + 5) total) total)
            = (List.range (((rest.drop 4).length + 4) / 5)).map
              (fun b => jsRound100 (min (done + 5 + 5 * b + 5) total) total) := by
          rw [List.map_map]
          apply List.map_congr_left
          intro b _
          show jsRound100 (min (done + 5 * (b + 1) + 5) total) total
              = jsRound100 (min (done + 5 + 5 * b + 5) total) total
          have harg : done + 5 * (b + 1) + 5 = done + 5 + 5 * b + 5 := by ring
          rw [harg]
        rw [htail]
      · rw [hout] at hrun
        simp only at hrun
        injection hrun with h1 h23
        injection h23 with h2 h3
        cases h3

theorem ingestLoop_progress (cfm : List (String × UFile)) (total : Nat)
    (l : List ChunkInfo) (done : Nat) (db db' : DBState) (evs : List Ev)
    (hrun : ingestLoop cfm total done db l = (db', evs, none)) :
    evs.filterMap progressOf
      = (List.range ((l.length + 4) / 5)).map
          (fun b => jsRound100 (min (done + 5 * b + 5) total) total) :=
  ingestGo_progress cfm total l.length l done db db' evs (le_refl _) hrun

theorem jsRound100_mono (t d d' : Nat) (h : d ≤ d') : jsRound100 d t ≤ jsRound100 d' t :=
  Nat.div_le_div_right (by omega)

theorem jsRound100_self (t : Nat) (ht : 0 < t) : jsRound100 t t = 100 := by
  unfold jsRound100
  have h1 : 200 * t + t = 201 * t := by ring
  rw [h1]
  exact Nat.div_eq_of_lt_le (by omega) (by omega)

theorem progress_formula_pairwise (n : Nat) :
    (0 :: (List.range ((n + 4) / 5)).map
      (fun b => jsRound100 (min (5 * b + 5) n) n)).Pairwise (· ≤ ·) := by
  rw [List.pairwise_cons]
  refine ⟨fun x _ => Nat.zero_le x, ?_⟩
  exact (List.pairwise_lt_range _).map _
    (fun a b hab => jsRound100_mono n _ _ (by omega))

theorem progress_formula_last (n : Nat) (hn : 0 < n) :
    (0 :: (List.range ((n + 4) / 5)).map
      (fun b => jsRound100 (min (5 * b + 5) n) n)).getLast? = some 100 := by
  obtain ⟨k, hk⟩ : ∃ k, (n + 4) / 5 = k + 1 := ⟨(n + 4) / 5 - 1, by omega⟩
  rw [hk, List.range_succ, List.map_append]
  simp only [List.map_cons, List.map_nil]
  rw [← List.cons_append, List.getLast?_concat]
  have hmin : min (5 * k + 5) n = n := by omega
  rw [hmin, jsRound100_self n hn]

theorem loadAllData_miss (st : AppState) (files : List UFile) (mf : UFile)
    (meta : Metadata)
    (hmf : (scanFiles files).1 = some mf)
    (hparse : parseMetadataText mf.content = some meta)
    (hmiss : getMetadataDB st.db = none ∨ ¬ getMetadataHashDB st.db = some mf.hash) :
    loadAllData st files
      = ((missIngest st (scanFiles files).2 meta mf.hash).1,
         (missIngest st (scanFiles files).2 meta mf.hash).2.1,
         Ev.evProgress 0 :: (missIngest st (scanFiles files).2 meta mf.hash).2.2) := by
  unfold loadAllData
  rcases hc : getMetadataDB st.db with _ | cm
  · simp [hmf, hparse, hc]
  · rcases hmiss with hmiss | hmiss
    · rw [hmiss] at hc; cases hc
    · simp [hmf, hparse, hc, hmiss]

theorem loadAllData_hit (st : AppState) (files : List UFile) (mf : UFile)
    (meta cm : Metadata)
    (hmf : (scanFiles files).1 = some mf)
    (hparse : parseMetadataText mf.content = some meta)
    (hc : getMetadataDB st.db = some cm)
    (hh : getMetadataHashDB st.db = some mf.hash) :
    loadAllData st files
      = (⟨st.db, some cm, loadChunksFromDB st.db cm.chunks.length⟩, IngestResult.ok,
         Ev.evProgress 0 :: (hitProgressEvents cm.chunks.length ++ [Ev.evProgress 100])) := by
  unfold loadAllData hitIngest
  simp [hmf, hparse, hc, hh]

/-! ## Claim C4: batch progress -/

/-- Claim C4: during a cache-miss ingest of `N ≥ 1` chunk files processed
sequentially in batches of 5, the progress value emitted after each batch
equals `round((chunksDone / totalChunks) * 100)` — the emitted sequence
being the initial `0` followed, for batch `b`, by
`jsRound100 (min (5b + 5) N) N` where `min (5b + 5) N` is the count of
chunks completed after that batch; the sequence is non-decreasing and the
final emitted value is exactly 100 on successful completion. -/
theorem ingest_batch_progress (st : AppState) (files : List UFile) (mf : UFile)
    (meta : Metadata)
    (hmf : (scanFiles files).1 = some mf)
    (hparse : parseMetadataText mf.content = some meta)
    (hmiss : getMetadataDB st.db = none ∨ ¬ getMetadataHashDB st.db = some mf.hash)
    (hn : 0 < meta.chunks.length)
    (hok : (loadAllData st files).2.1 = IngestResult.ok) :
    (loadAllData st files).2.2.filterMap progressOf
      = 0 :: (List.range ((meta.chunks.length + 4) / 5)).map
          (fun b => jsRound100 (min (5 * b + 5) meta.chunks.length) meta.chunks.length)
    ∧ ((loadAllData st files).2.2.filterMap progressOf).Pairwise (· ≤ ·)
    ∧ ((loadAllData st files).2.2.filterMap progressOf).getLast? = some 100 := by
  have hld := loadAllData_miss st files mf meta hmf hparse hmiss
  rw [hld] at hok ⊢
  rcases hout : ingestLoop (scanFiles files).2 meta.chunks.length 0
      (saveMetadataHashDB (saveMetadataDB (clearAllDB st.db) meta) mf.hash) meta.chunks
    with ⟨db4, evs4, err4⟩
  rcases err4 with _ | e
  · have hfm : (Ev.evProgress 0 :: (missIngest st (scanFiles files).2 meta mf.hash).2.2).filterMap progressOf
        = 0 :: evs4.filterMap progressOf := by
      simp only [missIngest, hout]
      simp [progressOf]
    have hprog := ingestLoop_progress (scanFiles files).2 meta.chunks.length
      meta.chunks 0
      (saveMetadataHashDB (saveMetadataDB (clearAllDB st.db) meta) mf.hash) db4 evs4
      hout
    have hfm2 : (Ev.evProgress 0 :: (missIngest st (scanFiles files).2 meta mf.hash).2.2).filterMap progressOf
        = 0 :: (List.range ((meta.chunks.length + 4) / 5)).map
            (fun b => jsRound100 (min (5 * b + 5) meta.chunks.length) meta.chunks.length) := by
      rw [hfm, hprog]
      simp only [Nat.zero_add]
    refine ⟨hfm2, ?_, ?_⟩
    · rw [hfm2]
      exact progress_formula_pairwise meta.chunks.length
    · rw [hfm2]
      exact progress_formula_last meta.chunks.length hn
  · exfalso
    have he : (missIngest st (scanFiles files).2 meta mf.hash).2.1 = e := by
      simp only [missIngest, hout]
    rw [he] at hok
    exact ingestLoop_err_ne_ok (scanFiles files).2 meta.chunks.length
      meta.chunks 0 _ e (by rw [hout]) hok

/-- Witness for C4: ingesting the seven-chunk sample dataset from an
empty store emits the progress sequence `0, 71, 100`
(`round((5/7)·100) = 71` after the first batch), ending at exactly 100. -/
theorem ingest_batch_progress_witness :
    (loadAllData ⟨db0, none, []⟩ wFiles).2.2.filterMap progressOf
      = 0 :: (List.range ((wMeta.chunks.length + 4) / 5)).map
          (fun b => jsRound100 (min (5 * b + 5) wMeta.chunks.length) wMeta.chunks.length)
    ∧ ((loadAllData ⟨db0, none, []⟩ wFiles).2.2.filterMap progressOf).getLast? = some 100 := by
  have h := ingest_batch_progress ⟨db0, none, []⟩ wFiles wMetaFile wMeta
    (by decide) (by decide) (Or.inl (by decide)) (by decide) (by decide)
  exact ⟨h.1, h.2.2⟩

theorem hit_trace_no_write (n : Nat) :
    ∀ ev ∈ Ev.evProgress 0 :: (hitProgressEvents n ++ [Ev.evProgress 100]),
      isWriteEv ev = false := by
  intro ev hev
  rcases List.mem_cons.mp hev with heq | hev2
  · subst heq; rfl
  · rcases List.mem_append.mp hev2 with h | h
    · obtain ⟨i, _, heq⟩ := List.mem_map.mp h
      rw [← heq]; rfl
    · simp only [List.mem_singleton] at h
      subst h; rfl

theorem loadAllData_miss_state (st0 : AppState) (files : List UFile) (mf : UFile)
    (meta : Metadata)
    (hmf : (scanFiles files).1 = some mf)
    (hparse : parseMetadataText mf.content = some meta)
    (hmiss : getMetadataDB st0.db = none ∨ ¬ getMetadataHashDB st0.db = some mf.hash)
    (hok : (loadAllData st0 files).2.1 = IngestResult.ok) :
    ∃ db4 : DBState,
      (loadAllData st0 files).1
        = ⟨db4, some meta, loadChunksFromDB db4 meta.chunks.length⟩
      ∧ db4.metaCurrent = some meta ∧ db4.metaHash = some mf.hash := by
  have hld1 := loadAllData_miss st0 files mf meta hmf hparse hmiss
  rcases hout : ingestLoop (scanFiles files).2 meta.chunks.length 0
      (saveMetadataHashDB (saveMetadataDB (clearAllDB st0.db) meta) mf.hash) meta.chunks
    with ⟨db4, evs4, err4⟩
  rcases err4 with _ | e
  · have hmiss1 : missIngest st0 (scanFiles files).2 meta mf.hash
        = (⟨db4, some meta, loadChunksFromDB db4 meta.chunks.length⟩, IngestResult.ok,
           Ev.evClearAll :: Ev.evSaveMetadata :: Ev.evSaveHash :: evs4) := by
      simp only [missIngest, hout]
    have hmeta4 := ingestLoop_meta (scanFiles files).2 meta.chunks.length meta.chunks 0
      (saveMetadataHashDB (saveMetadataDB (clearAllDB st0.db) meta) mf.hash)
    rw [show ingestLoop (scanFiles files).2 meta.chunks.length 0
        (saveMetadataHashDB (saveMetadataDB (clearAllDB st0.db) meta) mf.hash) meta.chunks
        = (db4, evs4, none) from hout] at hmeta4
    refine ⟨db4, ?_, ?_, ?_⟩
    · rw [hld1, hmiss1]
    · rw [hmeta4.1]; rfl
    · rw [hmeta4.2]; rfl
  · exfalso
    have he : (missIngest st0 (scanFiles files).2 meta mf.hash).2.1 = e := by
      simp only [missIngest, hout]
    rw [hld1] at hok
    simp only at hok
    rw [he] at hok
    exact ingestLoop_err_ne_ok (scanFiles files).2 meta.chunks.length
      meta.chunks 0 _ e (by rw [hout]) hok

/-! ## Claim C5: idempotent cache hit -/

/-- Claim C5: after a successful ingest, ingesting the same metadata file
bytes a second time (the stored hash equals the newly computed hash AND
stored metadata is present) takes the cache-hit path: the persistent
store is untouched and no chunk file is re-parsed or re-written (the
second trace holds no write or parse event), the persisted chunks are
reused to repopulate the resident tier (`loadChunksFromDB`), the whole
resulting state equals the state after the first ingest, and a subsequent
`readRange` yields a result identical to the one after the first ingest.
(The content hash is a SHA-256 hex string, hence non-empty.) -/
theorem ingest_idempotent_cache_hit (st0 : AppState) (files : List UFile) (mf : UFile)
    (hmf : (scanFiles files).1 = some mf)
    (hhash : mf.hash ≠ "")
    (hok : (loadAllData st0 files).2.1 = IngestResult.ok) :
    (loadAllData ((loadAllData st0 files).1) files).1 = (loadAllData st0 files).1
    ∧ (loadAllData ((loadAllData st0 files).1) files).2.1 = IngestResult.ok
    ∧ (∀ ev ∈ (loadAllData ((loadAllData st0 files).1) files).2.2, isWriteEv ev = false)
    ∧ (∃ m : Metadata, ((loadAllData st0 files).1).db.metaCurrent = some m
        ∧ (loadAllData ((loadAllData st0 files).1) files).1.loadedChunks
            = loadChunksFromDB ((loadAllData st0 files).1).db m.chunks.length)
    ∧ (∀ (m' : Metadata) (s e : Nat),
        getDataForRange m' (loadAllData ((loadAllData st0 files).1) files).1.loadedChunks s e
          = getDataForRange m' ((loadAllData st0 files).1).loadedChunks s e) := by
  rcases hparse0 : parseMetadataText mf.content with _ | meta
  · exfalso
    unfold loadAllData at hok
    simp [hmf, hparse0] at hok
  · rcases hc0 : getMetadataDB st0.db with _ | cm
    · obtain ⟨db4, hst1, hcur, hhash4⟩ :=
        loadAllData_miss_state st0 files mf meta hmf hparse0 (Or.inl hc0) hok
      have hh1 : getMetadataHashDB db4 = some mf.hash := by
        unfold getMetadataHashDB
        rw [hhash4]
        simp [hhash]
      have hld2 := loadAllData_hit
        ⟨db4, some meta, loadChunksFromDB db4 meta.chunks.length⟩ files mf meta meta
        hmf hparse0 hcur hh1
      rw [hst1, hld2]
      exact ⟨rfl, rfl, hit_trace_no_write meta.chunks.length, ⟨meta, hcur, rfl⟩,
        fun m' s e => rfl⟩
    · by_cases hh0 : getMetadataHashDB st0.db = some mf.hash
      · have hld1 := loadAllData_hit st0 files mf meta cm hmf hparse0 hc0 hh0
        have hst1 : (loadAllData st0 files).1
            = ⟨st0.db, some cm, loadChunksFromDB st0.db cm.chunks.length⟩ := by
          rw [hld1]
        have hld2 := loadAllData_hit
          ⟨st0.db, some cm, loadChunksFromDB st0.db cm.chunks.length⟩ files mf meta cm
          hmf hparse0 hc0 hh0
        rw [hst1, hld2]
        exact ⟨rfl, rfl, hit_trace_no_write cm.chunks.length, ⟨cm, hc0, rfl⟩,
          fun m' s e => rfl⟩
      · obtain ⟨db4, hst1, hcur, hhash4⟩ :=
          loadAllData_miss_state st0 files mf meta hmf hparse0 (Or.inr hh0) hok
        have hh1 : getMetadataHashDB db4 = some mf.hash := by
          unfold getMetadataHashDB
          rw [hhash4]
          simp [hhash]
        have hld2 := loadAllData_hit
          ⟨db4, some meta, loadChunksFromDB db4 meta.chunks.length⟩ files mf meta meta
          hmf hparse0 hcur hh1
        rw [hst1, hld2]
        exact ⟨rfl, rfl, hit_trace_no_write meta.chunks.length, ⟨meta, hcur, rfl⟩,
          fun m' s e => rfl⟩

theorem nodup_map_ne {α β : Type} (f : α → β) (l₁ l₂ : List α)
    (h : ((l₁ ++ l₂).map f).Nodup) (a : α) (ha : a ∈ l₁) (b : α) (hb : b ∈ l₂) :
    f b ≠ f a := by
  rw [List.map_append] at h
  have hd := List.disjoint_of_nodup_append h
  intro heq
  exact hd (List.mem_map_of_mem f ha) (heq ▸ List.mem_map_of_mem f hb)

theorem runItems_bad (cfm : List (String × UFile)) :
    ∀ (g : List ChunkInfo) (bad : ChunkInfo) (rest : List ChunkInfo) (db : DBState),
      (∀ info ∈ g, (itemResolve cfm info).isSome = true) →
      matchChunkFile cfm bad = none →
      (runItems cfm db (g ++ bad :: rest)).2.2
          = some (IngestResult.errChunkNotFound bad.id)
      ∧ (∀ info ∈ g, (g.map (fun i => i.id)).Nodup →
          getChunkDB (runItems cfm db (g ++ bad :: rest)).1 info.id
            = itemResolve cfm info)
      ∧ (∀ id : Nat, (∀ info ∈ g, info.id ≠ id) →
          getChunkDB (runItems cfm db (g ++ bad :: rest)).1 id = getChunkDB db id) := by
  intro g
  induction g with
  | nil =>
    intro bad rest db _ hbad
    have h : runItems cfm db (bad :: rest) = (db, [], some (IngestResult.errChunkNotFound bad.id)) := by
      simp only [runItems, hbad]
    rw [List.nil_append, h]
    exact ⟨rfl, fun info hmem => absurd hmem (List.not_mem_nil info), fun id _ => rfl⟩
  | cons p g' ih =>
    intro bad rest db hgood hbad
    have hres : (itemResolve cfm p).isSome = true := hgood p (by simp)
    rcases hm : matchChunkFile cfm p with _ | f
    · rw [itemResolve, hm] at hres
      simp at hres
    · rcases hp : parseChunkText f.content with _ | cd
      · rw [itemResolve, hm] at hres
        simp only [Option.some_bind, hp] at hres
        simp at hres
      · have hstep : runItems cfm db ((p :: g') ++ bad :: rest)
            = ((runItems cfm (saveChunkDB db p.id cd) (g' ++ bad :: rest)).1,
               Ev.evParseChunk p.id :: Ev.evSaveChunk p.id ::
                 (runItems cfm (saveChunkDB db p.id cd) (g' ++ bad :: rest)).2.1,
               (runItems cfm (saveChunkDB db p.id cd) (g' ++ bad :: rest)).2.2) := by
          simp only [List.cons_append, runItems, hm, hp]
          rfl
        have hihr := ih bad rest (saveChunkDB db p.id cd)
          (fun i hi => hgood i (List.mem_cons_of_mem _ hi)) hbad
        refine ⟨by rw [hstep]; exact hihr.1, ?_, ?_⟩
        · intro info hmem hnd
          have hndrest : (g'.map (fun i => i.id)).Nodup := by
            rw [List.map_cons] at hnd
            exact hnd.of_cons
          have hidnotin : p.id ∉ g'.map (fun i => i.id) := by
            rw [List.map_cons] at hnd
            exact (List.nodup_cons.mp hnd).1
          rcases List.mem_cons.mp hmem with heq | hmem'
          · subst heq
            rw [hstep]
            have h1 := hihr.2.2 info.id (fun i hi heq2 => hidnotin
              (heq2 ▸ List.mem_map_of_mem _ hi))
            rw [h1]
            show jsMapGet (jsMapSet db.chunks info.id cd) info.id = itemResolve cfm info
            rw [jsMapGet_set_self, itemResolve, hm]
            simp [hp]
          · rw [hstep]
            exact hihr.2.1 info hmem' hndrest
        · intro id hne
          rw [hstep]
          have h1 := hihr.2.2 id (fun i hi => hne i (List.mem_cons_of_mem _ hi))
          rw [h1]
          show jsMapGet (jsMapSet db.chunks p.id cd) id = jsMapGet db.chunks id
          exact jsMapGet_set_ne db.chunks p.id id cd
            (fun hh => hne p (by simp) hh.symm)

theorem ingestGo_chunk_not_found (cfm : List (String × UFile)) (total : Nat) :
    ∀ (fuel : Nat) (pre : List ChunkInfo) (bad : ChunkInfo) (post : List ChunkInfo)
      (done : Nat) (db : DBState),
      (pre ++ bad :: post).length ≤ fuel →
      (∀ info ∈ pre, (itemResolve cfm info).isSome = true) →
      matchChunkFile cfm bad = none →
      ((pre ++ [bad]).map (fun i => i.id)).Nodup →
      (ingestGo cfm total fuel done db (pre ++ bad :: post)).2.2
          = some (IngestResult.errChunkNotFound bad.id)
      ∧ (∀ info ∈ pre,
          getChunkDB (ingestGo cfm total fuel done db (pre ++ bad :: post)).1 info.id
            = itemResolve cfm info)
      ∧ (∀ id : Nat, (∀ info ∈ pre, info.id ≠ id) →
          getChunkDB (ingestGo cfm total fuel done db (pre ++ bad :: post)).1 id
            = getChunkDB db id) := by
  intro fuel
  induction fuel with
  | zero =>
    intro pre bad post done db hlen _ _ _
    simp [List.length_append] at hlen
  | succ N ih =>
    intro pre bad post done db hlen hgood hbad hnd
    cases pre with
    | nil =>
      have hri : runItems cfm db (bad :: post.take 4)
          = (db, [], some (IngestResult.errChunkNotFound bad.id)) := by
        simp only [runItems, hbad]
      rw [List.nil_append]
      simp [ingestGo, hri]
    | cons p pre' =>
      have hresp : (itemResolve cfm p).isSome = true := hgood p (by simp)
      have hnd_pre : ((p :: pre').map (fun i => i.id)).Nodup :=
        List.Nodup.sublist ((List.sublist_append_left _ _).map _) hnd
      by_cases hlen4 : 4 ≤ pre'.length
      · have htake : (pre' ++ bad :: post).take 4 = pre'.take 4 :=
          List.take_append_of_le_length hlen4
        have hdrop : (pre' ++ bad :: post).drop 4 = pre'.drop 4 ++ bad :: post :=
          List.drop_append_of_le_length hlen4
        have hgoodbatch : ∀ info ∈ p :: pre'.take 4, (itemResolve cfm info).isSome = true := by
          intro info hmem
          rcases List.mem_cons.mp hmem with heq | hmem'
          · exact heq ▸ hresp
          · exact hgood info (List.mem_cons_of_mem _ (List.mem_of_mem_take hmem'))
        have hro := runItems_ok cfm (p :: pre'.take 4) db hgoodbatch
        rw [List.cons_append]
        simp only [ingestGo, htake]
        rcases hrieq : runItems cfm db (p :: pre'.take 4) with ⟨db1, evs1, err1⟩
        rw [hrieq] at hro
        have herr1 : err1 = none := hro.1
        subst herr1
        simp only [hrieq, hdrop]
        have hlen' : (pre'.drop 4 ++ bad :: post).length ≤ N := by
          simp only [List.length_append, List.length_cons, List.length_drop]
          simp only [List.length_append, List.length_cons] at hlen
          omega
        have hgood' : ∀ info ∈ pre'.drop 4, (itemResolve cfm info).isSome = true :=
          fun i hi => hgood i (List.mem_cons_of_mem _ ((List.drop_sublist 4 pre').subset hi))
        have hnd' : ((pre'.drop 4 ++ [bad]).map (fun i => i.id)).Nodup := by
          have hsubpre : List.Sublist (pre'.drop 4) (p :: pre') :=
            (List.drop_sublist 4 pre').trans (List.sublist_cons_self p pre')
          exact List.Nodup.sublist
            ((List.Sublist.append hsubpre (List.Sublist.refl [bad])).map _) hnd
        have hihr := ih (pre'.drop 4) bad post (done + 5) db1 hlen' hgood' hbad hnd'
        have hdecomp : p :: pre' = (p :: pre'.take 4) ++ pre'.drop 4 := by
          rw [List.cons_append, List.take_append_drop]
        have hndbatch : ((p :: pre'.take 4).map (fun i => i.id)).Nodup := by
          have hsb : List.Sublist (p :: pre'.take 4) (p :: pre') :=
            List.Sublist.cons₂ p (List.take_sublist 4 pre')
          exact List.Nodup.sublist (hsb.map _) hnd_pre
        refine ⟨hihr.1, ?_, ?_⟩
        · intro info hmem
          by_cases hmem4 : info ∈ p :: pre'.take 4
          · have hne : ∀ i ∈ pre'.drop 4, i.id ≠ info.id := by
              intro i hi
              exact nodup_map_ne (fun i => i.id) (p :: pre'.take 4) (pre'.drop 4)
                (by rw [← hdecomp]; exact hnd_pre) info hmem4 i hi
            rw [hihr.2.2 info.id hne]
            exact hro.2.2 info hmem4 hndbatch
          · have hmem' : info ∈ pre'.drop 4 := by
              rcases List.mem_cons.mp hmem with heq | hmem2
              · exact absurd (heq ▸ List.mem_cons_self p (pre'.take 4)) hmem4
              · rw [← List.take_append_drop 4 pre'] at hmem2
                rcases List.mem_append.mp hmem2 with h4 | h5
                · exact absurd (List.mem_cons_of_mem _ h4) hmem4
                · exact h5
            exact hihr.2.1 info hmem'
        · intro id hne
          rw [hihr.2.2 id (fun i hi =>
            hne i (List.mem_cons_of_mem _ ((List.drop_sublist 4 pre').subset hi)))]
          exact hro.2.1 id (fun i hi => hne i (match List.mem_cons.mp hi with
            | Or.inl heq => heq ▸ List.mem_cons_self p pre'
            | Or.inr h4 => List.mem_cons_of_mem _ (List.mem_of_mem_take h4)))
      · obtain ⟨k, hk⟩ : ∃ k, 4 - pre'.length = k + 1 := ⟨3 - pre'.length, by omega⟩
        have htake : (pre' ++ bad :: post).take 4 = pre' ++ bad :: post.take k := by
          rw [List.take_append_eq_append_take, List.take_of_length_le (by omega), hk,
            List.take_succ_cons]
        have hrb := runItems_bad cfm (p :: pre') bad (post.take k) db hgood hbad
        rw [List.cons_append] at hrb
        rw [List.cons_append]
        simp only [ingestGo, htake]
        rcases hrieq : runItems cfm db (p :: (pre' ++ bad :: post.take k))
          with ⟨db1, evs1, err1⟩
        rw [hrieq] at hrb
        have herr : err1 = some (IngestResult.errChunkNotFound bad.id) := hrb.1
        subst herr
        exact ⟨rfl, fun info hmem => hrb.2.1 info hmem hnd_pre, fun id hne => hrb.2.2 id hne⟩

theorem ingestLoop_chunk_not_found (cfm : List (String × UFile)) (total : Nat)
    (pre : List ChunkInfo) (bad : ChunkInfo) (post : List ChunkInfo)
    (done : Nat) (db : DBState)
    (hgood : ∀ info ∈ pre, (itemResolve cfm info).isSome = true)
    (hbad : matchChunkFile cfm bad = none)
    (hnd : ((pre ++ [bad]).map (fun i => i.id)).Nodup) :
    (ingestLoop cfm total done db (pre ++ bad :: post)).2.2
        = some (IngestResult.errChunkNotFound bad.id)
    ∧ (∀ info ∈ pre,
        getChunkDB (ingestLoop cfm total done db (pre ++ bad :: post)).1 info.id
          = itemResolve cfm info) :=
  ⟨(ingestGo_chunk_not_found cfm total _ pre bad post done db (le_refl _) hgood hbad hnd).1,
   (ingestGo_chunk_not_found cfm total _ pre bad post done db (le_refl _) hgood hbad hnd).2.1⟩

/-- Claim C7: during a cache-miss ingest, each chunk info is matched to an
uploaded file first by the exact basename of its source file reference (an
exact-name hit always wins), falling back to the first uploaded chunk file
whose stored name contains the token `chunk_<id>.json`; when neither
matcher finds a file for some chunk — its basename misses the map and no
name holds the token — the ingest aborts with `errChunkNotFound` carrying
that chunk's id, and every chunk persisted earlier in this ingest attempt
remains in the store with its parsed content (no automatic rollback). -/
theorem ingest_chunk_not_found (st : AppState) (files : List UFile) (mf : UFile)
    (meta : Metadata) (pre : List ChunkInfo) (bad : ChunkInfo) (post : List ChunkInfo)
    (hmf : (scanFiles files).1 = some mf)
    (hparse : parseMetadataText mf.content = some meta)
    (hmiss : getMetadataDB st.db = none ∨ ¬ getMetadataHashDB st.db = some mf.hash)
    (hsplit : meta.chunks = pre ++ bad :: post)
    (hpre : ∀ info ∈ pre, (itemResolve (scanFiles files).2 info).isSome = true)
    (hbad : matchChunkFile (scanFiles files).2 bad = none)
    (hnd : ((pre ++ [bad]).map (fun i => i.id)).Nodup) :
    (loadAllData st files).2.1 = IngestResult.errChunkNotFound bad.id
    ∧ (∀ info ∈ pre,
        getChunkDB (loadAllData st files).1.db info.id
          = itemResolve (scanFiles files).2 info)
    ∧ jsMapGet (scanFiles files).2 (basenameOf bad.file) = none
    ∧ (scanFiles files).2.find? (fun p =>
        strContainsSub p.1 ("chunk_" ++ toString bad.id ++ ".json")) = none
    ∧ (∀ (cfm : List (String × UFile)) (info : ChunkInfo) (f : UFile),
        jsMapGet cfm (basenameOf info.file) = some f →
          matchChunkFile cfm info = some f) := by
  have hld := loadAllData_miss st files mf meta hmf hparse hmiss
  rcases hout : ingestLoop (scanFiles files).2 (pre ++ bad :: post).length 0
      (saveMetadataHashDB (saveMetadataDB (clearAllDB st.db) meta) mf.hash)
      (pre ++ bad :: post) with ⟨db4, evs4, err4⟩
  have hloop := ingestLoop_chunk_not_found (scanFiles files).2 (pre ++ bad :: post).length
    pre bad post 0 (saveMetadataHashDB (saveMetadataDB (clearAllDB st.db) meta) mf.hash)
    hpre hbad hnd
  rw [hout] at hloop
  have herr : err4 = some (IngestResult.errChunkNotFound bad.id) := hloop.1
  subst herr
  have hmi : missIngest st (scanFiles files).2 meta mf.hash
      = (⟨db4, some meta, st.loadedChunks⟩, IngestResult.errChunkNotFound bad.id,
         Ev.evClearAll :: Ev.evSaveMetadata :: Ev.evSaveHash :: evs4) := by
    simp only [missIngest, hsplit, hout]
  have hmatchers : jsMapGet (scanFiles files).2 (basenameOf bad.file) = none
      ∧ (scanFiles files).2.find? (fun p =>
          strContainsSub p.1 ("chunk_" ++ toString bad.id ++ ".json")) = none := by
    unfold matchChunkFile at hbad
    rcases hg : jsMapGet (scanFiles files).2 (basenameOf bad.file) with _ | f
    · rw [hg] at hbad
      simp only [Option.map_eq_none'] at hbad
      exact ⟨rfl, hbad⟩
    · rw [hg] at hbad
      simp at hbad
  refine ⟨?_, ?_, hmatchers.1, hmatchers.2, ?_⟩
  · rw [hld, hmi]
  · intro info hmem
    rw [hld]
    have hdb : (missIngest st (scanFiles files).2 meta mf.hash).1.db = db4 := by
      rw [hmi]
    rw [hdb]
    exact hloop.2 info hmem
  · intro cfm info f hget
    unfold matchChunkFile
    rw [hget]

theorem ingest_chunk_not_found_witness :
    (loadAllData ⟨db0, none, []⟩ wFilesMissing5).2.1
        = IngestResult.errChunkNotFound 5
    ∧ (∀ info ∈ wMeta.chunks.take 5,
        getChunkDB (loadAllData ⟨db0, none, []⟩ wFilesMissing5).1.db info.id
          = itemResolve (scanFiles wFilesMissing5).2 info) := by
  have h := ingest_chunk_not_found ⟨db0, none, []⟩ wFilesMissing5 wMetaFile wMeta
    (wMeta.chunks.take 5) ⟨5, 5, 6, "chunk_5.json"⟩ [⟨6, 6, 7, "chunk_6.json"⟩]
    (by decide) (by decide) (Or.inl (by decide)) (by decide) (by decide) (by decide)
    (by decide)
  exact ⟨h.1, h.2.1⟩

theorem ingest_idempotent_cache_hit_witness :
    (loadAllData ((loadAllData ⟨db0, none, []⟩ wFiles).1) wFiles).1
        = (loadAllData ⟨db0, none, []⟩ wFiles).1
    ∧ (loadAllData ((loadAllData ⟨db0, none, []⟩ wFiles).1) wFiles).2.1 = IngestResult.ok
    ∧ (∀ ev ∈ (loadAllData ((loadAllData ⟨db0, none, []⟩ wFiles).1) wFiles).2.2,
        isWriteEv ev = false) := by
  have h := ingest_idempotent_cache_hit ⟨db0, none, []⟩ wFiles wMetaFile
    (by decide) (by decide) (by decide)
  exact ⟨h.1, h.2.1, h.2.2.1⟩
